import Mathlib

/-!
Shallow embedding of the growable single-producer/single-consumer queue
implemented in src/include/disruptor/dynamic_ring_buffer.h.

The C++ structure is a circular singly-linked ring of fixed-capacity blocks.
We represent the ring as a Lean list of blocks kept in ring order: the block
stored at index i has its next_ pointer aimed at the block stored at index
(i + 1) % length.  This is faithful because the ring starts as a single
self-linked block and the only structural mutation ever performed is the
producer splice "new_block->next_ = tail->next_; tail->next_ = new_block",
which inserts the new node directly after the tail position and therefore
preserves the "next is the cyclic successor" representation.  The two raw
pointers front_block_ and tail_block_ become indices into that list; a splice
in front of an index shifts it by one, which encodes an unchanged pointer.

Machine integers: the position counters are int64_t values that, in every
reachable state, stay far from the signed bounds, and signed overflow is
undefined behaviour in C++; they are embedded as Int.  size_t arithmetic
(slot indexing and the occupancy accounting) wraps modulo 2^64 and is
embedded with explicit reductions modulo 2^64.
-/

namespace Disruptor

/-- Modelled from the spec: the constant INITIAL_CURSOR_VALUE lives in
disruptor/sequencer.h, which is not among the given sources.  Spec section 3
describes each position counter as "conceptually starting at a sentinel
empty value (INITIAL_CURSOR_VALUE, i.e., one below the first valid
position)"; the first valid position is 0. -/
def INITIAL_CURSOR_VALUE : Int := -1

/-- Fuel-driven ceiling base-two logarithm: with fuel at least n this computes
the least k with n <= 2 ^ k (see ceilLog2F_eq_clog below). -/
def ceilLog2F : Nat → Nat → Nat
  | 0, _ => 0
  | fuel + 1, n => if n ≤ 1 then 0 else ceilLog2F fuel ((n + 1) / 2) + 1

/-- Modelled from the spec: ceilToPow2 lives in disruptor/sequencer.h, which
is not among the given sources.  Spec section 6 says construction takes "a
power-of-two target block size (rounded up internally if not already a power
of two)" and section 8 that a requested size of 10 yields 16: the least
power of two that is at least the request. -/
def ceilToPow2 (n : Nat) : Nat := 2 ^ ceilLog2F n n

/-- One fixed-capacity segment of the queue.  Mirrors DynamicRingBuffer::Block:
a producer counter tail_, a consumer counter head_, the immutable slot count
size_, and the owned slot array events_ (the next_ pointer is represented by
the position of the block inside the ring list, see the file comment). -/
structure Block (T : Type) where
  tail_ : Int
  head_ : Int
  size_ : Nat
  events_ : List T
deriving DecidableEq

instance [Inhabited T] : Inhabited (Block T) :=
  ⟨⟨INITIAL_CURSOR_VALUE, INITIAL_CURSOR_VALUE, 0, []⟩⟩

/-- Block::Block(size): both counters start at INITIAL_CURSOR_VALUE and the
slot array is allocated with size default-constructed entries. -/
def Block.create (T : Type) [Inhabited T] (size : Nat) : Block T :=
  { tail_ := INITIAL_CURSOR_VALUE
    head_ := INITIAL_CURSOR_VALUE
    size_ := size
    events_ := List.replicate size default }

/-- Block::mask(): size_ - 1. -/
def Block.mask (b : Block T) : Nat := b.size_ - 1

/-- The slot index used by Block::get and Block::set: the int64_t sequence is
converted to size_t (reduction modulo 2^64) and bitwise-ANDed with the mask. -/
def seqIndex (s : Int) (m : Nat) : Nat := (s.emod (2 ^ 64)).toNat &&& m

/-- Block::get(sequence): events_[sequence & mask()]. -/
def Block.get [Inhabited T] (b : Block T) (s : Int) : T :=
  b.events_.getD (seqIndex s b.mask) default

/-- Block::set(sequence, event): events_[sequence & mask()] = event. -/
def Block.set (b : Block T) (s : Int) (e : T) : Block T :=
  { b with events_ := b.events_.set (seqIndex s b.mask) e }

/-- Block::empty(): tail_ == head_. -/
def Block.empty (b : Block T) : Bool := b.tail_ == b.head_

/-- Block::hasAvailableCapacity(): (tail_ + 1 - (int64_t)size_) <= head_. -/
def Block.hasAvailableCapacity (b : Block T) : Bool :=
  decide (b.tail_ + 1 - (b.size_ : Int) ≤ b.head_)

/-- Block::advanceTail(): tail_.incrementAndGet(1). -/
def Block.advanceTail (b : Block T) : Block T := { b with tail_ := b.tail_ + 1 }

/-- Block::advanceHead(): head_.incrementAndGet(1). -/
def Block.advanceHead (b : Block T) : Block T := { b with head_ := b.head_ + 1 }

/-- The whole queue: the ring of blocks (in ring order, see the file comment),
the consumer pointer front_block_, the producer pointer tail_block_, the
per-block capacity buffer_size_, and the block counter num_blocks_. -/
structure DynamicRingBuffer (T : Type) where
  blocks : List (Block T)
  front_block_ : Nat
  tail_block_ : Nat
  buffer_size_ : Nat
  num_blocks_ : Nat
deriving DecidableEq

/-- DynamicRingBuffer::DynamicRingBuffer(buffer_size, ...): the claim-strategy,
wait-strategy and timing parameters are accepted but unused by this component,
so they are omitted here.  buffer_size_ = ceilToPow2(buffer_size), one block
is allocated, and it is linked to itself (a one-element ring). -/
def DynamicRingBuffer.create (T : Type) [Inhabited T] (buffer_size : Nat) :
    DynamicRingBuffer T :=
  { blocks := [Block.create T (ceilToPow2 buffer_size)]
    front_block_ := 0
    tail_block_ := 0
    buffer_size_ := ceilToPow2 buffer_size
    num_blocks_ := 1 }

/-- The producer splice "new_block->next_ = tail->next_; tail->next_ =
new_block": the new node is inserted directly after position i. -/
def spliceAfter (l : List α) (i : Nat) (a : α) : List α :=
  l.take (i + 1) ++ a :: l.drop (i + 1)

/-- DynamicRingBuffer::enqueue(event).  The fences order memory between the
two threads and have no effect on the sequential values computed here.
In the growth branch the C++ code does not touch front_block_; inserting a
node below a list index shifts that index by one, which is exactly an
unchanged pointer (see the file comment). -/
def DynamicRingBuffer.enqueue [Inhabited T] (q : DynamicRingBuffer T) (event : T) :
    DynamicRingBuffer T :=
  let tailIdx := q.tail_block_
  let tl := q.blocks.getD tailIdx default
  if tl.hasAvailableCapacity then
    { q with blocks := q.blocks.set tailIdx ((tl.set (tl.tail_ + 1) event).advanceTail) }
  else
    let nextIdx := (tailIdx + 1) % q.blocks.length
    if nextIdx ≠ q.front_block_ then
      let nb := q.blocks.getD nextIdx default
      { q with
          blocks := q.blocks.set nextIdx ((nb.set (nb.tail_ + 1) event).advanceTail)
          tail_block_ := nextIdx }
    else
      let newb := Block.create T q.buffer_size_
      let newb := (newb.set (newb.tail_ + 1) event).advanceTail
      { q with
          blocks := spliceAfter q.blocks tailIdx newb
          tail_block_ := tailIdx + 1
          front_block_ :=
            if tailIdx < q.front_block_ then q.front_block_ + 1 else q.front_block_
          num_blocks_ := q.num_blocks_ + 1 }

/-- DynamicRingBuffer::dequeue(event).  The C++ function reports success as a
bool and writes the dequeued value through a reference parameter only on
success; that is embedded as an Option result (none = returned false, the
output parameter was not written). -/
def DynamicRingBuffer.dequeue [Inhabited T] (q : DynamicRingBuffer T) :
    Option T × DynamicRingBuffer T :=
  let tail_block_at_start := q.tail_block_
  let headIdx := q.front_block_
  let hd := q.blocks.getD headIdx default
  if !hd.empty then
    (some (hd.get (hd.head_ + 1)),
     { q with blocks := q.blocks.set headIdx hd.advanceHead })
  else if headIdx ≠ tail_block_at_start then
    let nextIdx := (headIdx + 1) % q.blocks.length
    let nb := q.blocks.getD nextIdx default
    (some (nb.get (nb.head_ + 1)),
     { q with
         front_block_ := nextIdx
         blocks := q.blocks.set nextIdx nb.advanceHead })
  else
    (none, q)

/-- DynamicRingBuffer::occupied_approx(): walk the ring once from front_block_
accumulating (size_t)tail - (size_t)head per block into a size_t.  Walking a
well-formed ring visits every block exactly once, so the walk is the sum over
the block list; each subtraction and the running sum wrap modulo 2^64. -/
def DynamicRingBuffer.occupied_approx (q : DynamicRingBuffer T) : Nat :=
  (q.blocks.map (fun b => ((b.tail_ - b.head_).emod (2 ^ 64)).toNat)).sum % 2 ^ 64

/-- DynamicRingBuffer::available_approx(): buffer_size_ * num_blocks_ -
occupied_approx(), computed in size_t arithmetic. -/
def DynamicRingBuffer.available_approx (q : DynamicRingBuffer T) : Nat :=
  (((q.buffer_size_ * q.num_blocks_ : Int) - (q.occupied_approx : Int)).emod (2 ^ 64)).toNat

/-- DynamicRingBuffer::num_blocks(). -/
def DynamicRingBuffer.num_blocks (q : DynamicRingBuffer T) : Nat := q.num_blocks_

/-- DynamicRingBuffer::has_available_capacity(): available_approx() > 0. -/
def DynamicRingBuffer.has_available_capacity (q : DynamicRingBuffer T) : Bool :=
  decide (0 < q.available_approx)

/-- A sequential operation on the queue: an enqueue of a given event, or a
dequeue. -/
inductive Op (T : Type) where
  | enq (event : T)
  | deq
deriving DecidableEq

/-- Run a list of operations sequentially, collecting the result of every
dequeue call in order. -/
def DynamicRingBuffer.runOps [Inhabited T] (q : DynamicRingBuffer T) :
    List (Op T) → DynamicRingBuffer T × List (Option T)
  | [] => (q, [])
  | Op.enq e :: ops => (q.enqueue e).runOps ops
  | Op.deq :: ops =>
      let r := q.dequeue
      let rest := r.2.runOps ops
      (rest.1, r.1 :: rest.2)

/-- The specification-level queue, written from the spec's words: a plain
first-in-first-out sequence.  Enqueue appends at the back; dequeue takes the
front element, failing exactly when the queue is empty.  The results of all
dequeues are collected in order. -/
def fifoRun (m : List T) : List (Op T) → List T × List (Option T)
  | [] => (m, [])
  | Op.enq e :: ops => fifoRun (m ++ [e]) ops
  | Op.deq :: ops =>
      match m with
      | [] =>
          let rest := fifoRun ([] : List T) ops
          (rest.1, none :: rest.2)
      | x :: xs =>
          let rest := fifoRun xs ops
          (rest.1, some x :: rest.2)

/-- The events of a block that have been produced but not yet consumed, in
production order: the values stored for the sequences head_+1, ..., tail_. -/
def Block.pending [Inhabited T] (b : Block T) : List T :=
  (List.range (b.tail_ - b.head_).toNat).map (fun (i : Nat) => b.get (b.head_ + 1 + (i : Int)))

/-- The ring read in ring order starting at the consumer block. -/
def DynamicRingBuffer.ringSeg (q : DynamicRingBuffer T) : List (Block T) :=
  q.blocks.rotate q.front_block_

/-- The position of the producer block inside ringSeg. -/
def DynamicRingBuffer.tailPos (q : DynamicRingBuffer T) : Nat :=
  (q.tail_block_ + q.blocks.length - q.front_block_) % q.blocks.length

/-- The abstract queue content: all pending events, read in ring order from
the consumer block.  Oldest first. -/
def DynamicRingBuffer.absQueue [Inhabited T] (q : DynamicRingBuffer T) : List T :=
  ((q.ringSeg).map Block.pending).flatten

/-- The exact total occupancy: tail_ - head_ summed over all blocks, in
unbounded integers. -/
def DynamicRingBuffer.occInt (q : DynamicRingBuffer T) : Int :=
  (q.blocks.map (fun b => b.tail_ - b.head_)).sum

/-- The block of the ring at position i in ring order from the consumer. -/
def DynamicRingBuffer.blockAt [Inhabited T] (q : DynamicRingBuffer T) (i : Nat) : Block T :=
  q.ringSeg.getD i default

/-- The compound "write at tail_ + 1, then advance the tail" step that every
branch of enqueue performs on its destination block. -/
def Block.push (b : Block T) (e : T) : Block T :=
  (b.set (b.tail_ + 1) e).advanceTail

/-- Well-formedness of one block: its recorded size and its slot array match
the configured capacity, and the counters keep 0 <= tail - head <= size with
head never below the initial sentinel. -/
def BlockShape (cap : Nat) (b : Block T) : Prop :=
  b.size_ = cap ∧
  b.events_.length = cap ∧
  (-1 : Int) ≤ b.head_ ∧
  b.head_ ≤ b.tail_ ∧
  b.tail_ ≤ b.head_ + (cap : Int)

/-- The inductive state invariant.  ringSeg lists the blocks from the
consumer block (position 0) to the producer block (position tailPos) and then
the idle blocks; idle blocks are drained, blocks strictly between the
consumer and the producer (producer included) are nonempty.  Every
sequentially reachable state satisfies it. -/
def DynamicRingBuffer.Inv [Inhabited T] (q : DynamicRingBuffer T) : Prop :=
  0 < q.blocks.length ∧
  q.front_block_ < q.blocks.length ∧
  q.tail_block_ < q.blocks.length ∧
  q.num_blocks_ = q.blocks.length ∧
  (∃ k, k ≤ 64 ∧ q.buffer_size_ = 2 ^ k) ∧
  ∀ i, i < q.blocks.length →
    BlockShape q.buffer_size_ (q.blockAt i) ∧
    (q.tailPos < i → (q.blockAt i).tail_ = (q.blockAt i).head_) ∧
    (1 ≤ i → i ≤ q.tailPos → (q.blockAt i).head_ < (q.blockAt i).tail_)

/-- The number of enqueue operations in an operation list. -/
def countEnq (ops : List (Op T)) : Nat :=
  ops.countP (fun op => match op with | Op.enq _ => true | Op.deq => false)

/-- The number of successful dequeues among a list of dequeue results. -/
def countSome (outs : List (Option T)) : Nat :=
  outs.countP (fun o => o.isSome)

/-- The frame property of a single enqueue call: the consumer-owned state is
untouched.  Reading the ring in ring order from the consumer block, the list
of head counters is unchanged (growth appends one fresh block whose head is
the initial sentinel), exactly one tail counter is incremented by one,
num_blocks_ grows exactly when a block was spliced in, and front_block_ still
refers to the same block (its raw index shifts by one exactly when a node was
inserted below it in the block list). -/
def enqueueFrame [Inhabited T] (q q' : DynamicRingBuffer T) : Prop :=
  ∃ grew : Bool,
    q'.num_blocks_ = q.num_blocks_ + (if grew then 1 else 0) ∧
    q'.front_block_ =
      (if grew = true ∧ q.tail_block_ < q.front_block_ then q.front_block_ + 1
       else q.front_block_) ∧
    q'.ringSeg.map Block.head_
      = q.ringSeg.map Block.head_ ++ (if grew then [INITIAL_CURSOR_VALUE] else []) ∧
    ∃ j, j < q'.ringSeg.length ∧
      q'.ringSeg.map Block.tail_
        = (q.ringSeg.map Block.tail_ ++ (if grew then [INITIAL_CURSOR_VALUE] else [])).set j
            (((q.ringSeg.map Block.tail_
              ++ (if grew then [INITIAL_CURSOR_VALUE] else [])).getD j 0) + 1)

/-! ### The fuel-driven ceiling logarithm agrees with Nat.clog -/

theorem ceilLog2F_eq_clog {fuel n : Nat} (h : n ≤ fuel) :
    ceilLog2F fuel n = Nat.clog 2 n := by
  induction fuel generalizing n with
  | zero =>
    have hn : n = 0 := by omega
    rw [hn]
    exact (Nat.clog_zero_right 2).symm
  | succ fuel ih =>
    show (if n ≤ 1 then 0 else ceilLog2F fuel ((n + 1) / 2) + 1) = Nat.clog 2 n
    by_cases h1 : n ≤ 1
    · rw [if_pos h1, Nat.clog_of_right_le_one h1]
    · rw [if_neg h1]
      have h2 : 2 ≤ n := by omega
      rw [ih (by omega)]
      rw [Nat.clog_of_two_le (by omega) h2]
      have harg : n + 2 - 1 = n + 1 := by omega
      rw [harg]

theorem ceilToPow2_eq (n : Nat) : ceilToPow2 n = 2 ^ Nat.clog 2 n := by
  unfold ceilToPow2
  rw [ceilLog2F_eq_clog (le_refl n)]

/-! ### Modular index arithmetic -/

theorem mod_eq_of_modEq {len a r : Nat} (h : Nat.ModEq len a r) (hr : r < len) :
    a % len = r := by
  have h' : a % len = r % len := h
  rw [h', Nat.mod_eq_of_lt hr]

theorem mod_sub_mod {len a b r : Nat} (hb : b < len) (hr : r < len)
    (h : Nat.ModEq len (b + r) a) : (a + len - b) % len = r := by
  have key : (a + len - b) + b = a + len := by omega
  have e1 : Nat.ModEq len (a + len) a := Nat.add_mod_right a len
  have e2 : Nat.ModEq len ((a + len - b) + b) (r + b) := by
    rw [key]
    exact e1.trans (h.symm.trans (by rw [Nat.add_comm]))
  exact mod_eq_of_modEq (Nat.ModEq.add_right_cancel' b e2) hr

/-! ### Rotation of the block list -/

theorem getD_rotate {l : List α} {n i : Nat} (hi : i < l.length) (d : α) :
    (l.rotate n).getD i d = l.getD ((i + n) % l.length) d := by
  have h1 : i < (l.rotate n).length := by rw [List.length_rotate]; exact hi
  have hlen : 0 < l.length := Nat.lt_of_le_of_lt (Nat.zero_le i) hi
  have h2 : (i + n) % l.length < l.length := Nat.mod_lt _ hlen
  rw [List.getD_eq_getElem _ _ h1, List.getD_eq_getElem _ _ h2, List.getElem_rotate]

theorem rotate_set {l : List α} {f i : Nat} (hf : f < l.length) (hi : i < l.length) (b : α) :
    (l.set i b).rotate f = (l.rotate f).set ((i + l.length - f) % l.length) b := by
  have hlen : 0 < l.length := Nat.lt_of_le_of_lt (Nat.zero_le i) hi
  apply List.ext_getElem
  · simp [List.length_rotate, List.length_set]
  · intro j hj1 hj2
    have hj : j < l.length := by
      simpa [List.length_rotate, List.length_set] using hj1
    have hjf : (j + f) % l.length < l.length := Nat.mod_lt _ hlen
    have hset : j < (l.set ((i + l.length - f) % l.length) b).length := by
      simpa [List.length_set] using hj
    have hrot : (j + f) % (l.set i b).length < (l.set i b).length := by
      simpa [List.length_set] using hjf
    have hiff : (i = (j + f) % l.length) ↔ ((i + l.length - f) % l.length = j) := by
      constructor
      · intro h
        refine mod_sub_mod hf hj ?_
        have : Nat.ModEq l.length (j + f) i := by
          exact (Nat.mod_modEq (j + f) l.length).symm.trans (by rw [h])
        exact (by rw [Nat.add_comm] : f + j = j + f) ▸ this
      · intro h
        have h1 : Nat.ModEq l.length ((i + l.length - f) + f) (j + f) :=
          Nat.ModEq.add_right f (((Nat.mod_modEq (i + l.length - f) l.length)).symm.trans (by rw [h]))
        have h2 : (i + l.length - f) + f = i + l.length := by omega
        have h3 : Nat.ModEq l.length (i + l.length) (j + f) := h2 ▸ h1
        have h4 : Nat.ModEq l.length i (j + f) :=
          (Nat.ModEq.symm (Nat.add_mod_right i l.length)).trans h3
        exact (mod_eq_of_modEq h4.symm hi).symm
    rw [List.getElem_rotate]
    rw [List.getElem_set, List.getElem_set]
    simp only [List.length_set]
    rw [List.getElem_rotate]
    by_cases hc : i = (j + f) % l.length
    · rw [if_pos hc, if_pos (hiff.mp hc)]
    · rw [if_neg hc, if_neg (fun h => hc (hiff.mpr h))]

/-! ### Ring index bookkeeping -/

theorem DynamicRingBuffer.tailPos_lt [Inhabited T] {q : DynamicRingBuffer T}
    (h : 0 < q.blocks.length) : q.tailPos < q.blocks.length :=
  Nat.mod_lt _ h

theorem DynamicRingBuffer.tailPos_add_front [Inhabited T] {q : DynamicRingBuffer T}
    (hf : q.front_block_ < q.blocks.length) (ht : q.tail_block_ < q.blocks.length) :
    (q.tailPos + q.front_block_) % q.blocks.length = q.tail_block_ := by
  unfold DynamicRingBuffer.tailPos
  rw [Nat.mod_add_mod]
  have h1 : q.tail_block_ + q.blocks.length - q.front_block_ + q.front_block_
      = q.tail_block_ + q.blocks.length := by omega
  rw [h1, Nat.add_mod_right, Nat.mod_eq_of_lt ht]

theorem DynamicRingBuffer.blockAt_eq [Inhabited T] (q : DynamicRingBuffer T) {i : Nat}
    (hi : i < q.blocks.length) :
    q.blockAt i = q.blocks.getD ((i + q.front_block_) % q.blocks.length) default :=
  getD_rotate hi _

theorem DynamicRingBuffer.getD_tail [Inhabited T] {q : DynamicRingBuffer T}
    (hf : q.front_block_ < q.blocks.length) (ht : q.tail_block_ < q.blocks.length) :
    q.blocks.getD q.tail_block_ default = q.blockAt q.tailPos := by
  have h0 : 0 < q.blocks.length := Nat.lt_of_le_of_lt (Nat.zero_le _) hf
  rw [q.blockAt_eq (DynamicRingBuffer.tailPos_lt h0), q.tailPos_add_front hf ht]

theorem DynamicRingBuffer.getD_front [Inhabited T] {q : DynamicRingBuffer T}
    (hf : q.front_block_ < q.blocks.length) :
    q.blocks.getD q.front_block_ default = q.blockAt 0 := by
  have h0 : 0 < q.blocks.length := Nat.lt_of_le_of_lt (Nat.zero_le _) hf
  rw [q.blockAt_eq h0, Nat.zero_add, Nat.mod_eq_of_lt hf]

theorem DynamicRingBuffer.nextIdx_eq [Inhabited T] {q : DynamicRingBuffer T}
    (hf : q.front_block_ < q.blocks.length) (ht : q.tail_block_ < q.blocks.length) :
    (q.tail_block_ + 1) % q.blocks.length
      = (q.tailPos + 1 + q.front_block_) % q.blocks.length := by
  rw [show q.tailPos + 1 + q.front_block_ = q.tailPos + q.front_block_ + 1 by omega]
  rw [show (q.tailPos + q.front_block_ + 1) % q.blocks.length
      = ((q.tailPos + q.front_block_) % q.blocks.length + 1) % q.blocks.length from
      (Nat.mod_add_mod _ _ _).symm]
  rw [q.tailPos_add_front hf ht]

/-- The producer switch target is the consumer block exactly when the
producer block is the last block of the ring segment. -/
theorem DynamicRingBuffer.nextIdx_eq_front_iff [Inhabited T] {q : DynamicRingBuffer T}
    (hf : q.front_block_ < q.blocks.length) (ht : q.tail_block_ < q.blocks.length) :
    ((q.tail_block_ + 1) % q.blocks.length = q.front_block_)
      ↔ q.tailPos + 1 = q.blocks.length := by
  have h0 : 0 < q.blocks.length := Nat.lt_of_le_of_lt (Nat.zero_le _) hf
  have hlt : q.tailPos < q.blocks.length := DynamicRingBuffer.tailPos_lt h0
  rw [q.nextIdx_eq hf ht]
  constructor
  · intro h
    by_contra hne
    have hlt2 : q.tailPos + 1 < q.blocks.length := by omega
    have h2 : (q.tailPos + 1 + q.front_block_) % q.blocks.length
        = (0 + q.front_block_) % q.blocks.length := by
      rw [h, Nat.zero_add, Nat.mod_eq_of_lt hf]
    have h3 : Nat.ModEq q.blocks.length (q.tailPos + 1 + q.front_block_)
        (0 + q.front_block_) := h2
    have h4 : Nat.ModEq q.blocks.length (q.tailPos + 1) 0 :=
      Nat.ModEq.add_right_cancel' q.front_block_ h3
    have h5 : (q.tailPos + 1) % q.blocks.length = 0 := by
      have := mod_eq_of_modEq h4 h0
      simpa using this
    rw [Nat.mod_eq_of_lt hlt2] at h5
    omega
  · intro h
    rw [h, Nat.add_mod_left, Nat.mod_eq_of_lt hf]

theorem DynamicRingBuffer.getD_nextIdx [Inhabited T] {q : DynamicRingBuffer T}
    (hf : q.front_block_ < q.blocks.length) (ht : q.tail_block_ < q.blocks.length)
    (hlt : q.tailPos + 1 < q.blocks.length) :
    q.blocks.getD ((q.tail_block_ + 1) % q.blocks.length) default
      = q.blockAt (q.tailPos + 1) := by
  rw [q.blockAt_eq hlt, q.nextIdx_eq hf ht]

theorem DynamicRingBuffer.nextIdx_pos [Inhabited T] {q : DynamicRingBuffer T}
    (hf : q.front_block_ < q.blocks.length) (ht : q.tail_block_ < q.blocks.length)
    (hlt : q.tailPos + 1 < q.blocks.length) :
    ((q.tail_block_ + 1) % q.blocks.length + q.blocks.length - q.front_block_)
      % q.blocks.length = q.tailPos + 1 := by
  have h0 : 0 < q.blocks.length := Nat.lt_of_le_of_lt (Nat.zero_le _) hf
  refine mod_sub_mod hf hlt ?_
  rw [q.nextIdx_eq hf ht]
  have : Nat.ModEq q.blocks.length (q.tailPos + 1 + q.front_block_)
      ((q.tailPos + 1 + q.front_block_) % q.blocks.length) :=
    (Nat.mod_modEq _ _).symm
  exact (by rw [Nat.add_comm] : q.front_block_ + (q.tailPos + 1) = q.tailPos + 1 + q.front_block_) ▸ this

/-- tailPos is zero exactly when the consumer and producer pointers agree. -/
theorem DynamicRingBuffer.tailPos_eq_zero_iff [Inhabited T] {q : DynamicRingBuffer T}
    (hf : q.front_block_ < q.blocks.length) (ht : q.tail_block_ < q.blocks.length) :
    q.tailPos = 0 ↔ q.front_block_ = q.tail_block_ := by
  have h0 : 0 < q.blocks.length := Nat.lt_of_le_of_lt (Nat.zero_le _) hf
  constructor
  · intro h
    have := q.tailPos_add_front hf ht
    rw [h, Nat.zero_add, Nat.mod_eq_of_lt hf] at this
    exact this
  · intro h
    unfold DynamicRingBuffer.tailPos
    rw [← h]
    have h1 : q.front_block_ + q.blocks.length - q.front_block_ = q.blocks.length := by omega
    rw [h1, Nat.mod_self]

/-! ### Branch characterisations of enqueue -/

theorem DynamicRingBuffer.enqueue_avail_spec [Inhabited T] {q : DynamicRingBuffer T} (e : T)
    (hf : q.front_block_ < q.blocks.length) (ht : q.tail_block_ < q.blocks.length)
    (hcap : (q.blockAt q.tailPos).hasAvailableCapacity = true) :
    (q.enqueue e).ringSeg = q.ringSeg.set q.tailPos ((q.blockAt q.tailPos).push e) ∧
    (q.enqueue e).front_block_ = q.front_block_ ∧
    (q.enqueue e).tail_block_ = q.tail_block_ ∧
    (q.enqueue e).blocks.length = q.blocks.length ∧
    (q.enqueue e).tailPos = q.tailPos ∧
    (q.enqueue e).num_blocks_ = q.num_blocks_ ∧
    (q.enqueue e).buffer_size_ = q.buffer_size_ := by
  have hq : q.enqueue e = { q with
      blocks := q.blocks.set q.tail_block_ ((q.blockAt q.tailPos).push e) } := by
    simp only [DynamicRingBuffer.enqueue]
    rw [DynamicRingBuffer.getD_tail hf ht, if_pos hcap]
    rfl
  rw [hq]
  refine ⟨?_, rfl, rfl, List.length_set _ _ _, ?_, rfl, rfl⟩
  · show (q.blocks.set q.tail_block_ _).rotate q.front_block_ = _
    rw [rotate_set hf ht]
    rfl
  · show (q.tail_block_ + (q.blocks.set _ _).length - q.front_block_)
        % (q.blocks.set _ _).length = q.tailPos
    rw [List.length_set]
    rfl

theorem DynamicRingBuffer.enqueue_reuse_spec [Inhabited T] {q : DynamicRingBuffer T} (e : T)
    (hf : q.front_block_ < q.blocks.length) (ht : q.tail_block_ < q.blocks.length)
    (hcap : (q.blockAt q.tailPos).hasAvailableCapacity = false)
    (hlt : q.tailPos + 1 < q.blocks.length) :
    (q.enqueue e).ringSeg = q.ringSeg.set (q.tailPos + 1) ((q.blockAt (q.tailPos + 1)).push e) ∧
    (q.enqueue e).front_block_ = q.front_block_ ∧
    (q.enqueue e).tail_block_ = (q.tail_block_ + 1) % q.blocks.length ∧
    (q.enqueue e).blocks.length = q.blocks.length ∧
    (q.enqueue e).tailPos = q.tailPos + 1 ∧
    (q.enqueue e).num_blocks_ = q.num_blocks_ ∧
    (q.enqueue e).buffer_size_ = q.buffer_size_ := by
  have h0 : 0 < q.blocks.length := Nat.lt_of_le_of_lt (Nat.zero_le _) hf
  have hcond : ¬ ((q.blockAt q.tailPos).hasAvailableCapacity = true) := by
    rw [hcap]; exact Bool.false_ne_true
  have hcond2 : (q.tail_block_ + 1) % q.blocks.length ≠ q.front_block_ := by
    intro h
    have := (q.nextIdx_eq_front_iff hf ht).mp h
    omega
  have hnextlt : (q.tail_block_ + 1) % q.blocks.length < q.blocks.length := Nat.mod_lt _ h0
  have hq : q.enqueue e = { q with
      blocks := q.blocks.set ((q.tail_block_ + 1) % q.blocks.length)
        ((q.blockAt (q.tailPos + 1)).push e)
      tail_block_ := (q.tail_block_ + 1) % q.blocks.length } := by
    simp only [DynamicRingBuffer.enqueue]
    rw [DynamicRingBuffer.getD_tail hf ht, if_neg hcond, if_pos hcond2,
      DynamicRingBuffer.getD_nextIdx hf ht hlt]
    rfl
  rw [hq]
  refine ⟨?_, rfl, rfl, List.length_set _ _ _, ?_, rfl, rfl⟩
  · show (q.blocks.set _ _).rotate q.front_block_ = _
    rw [rotate_set hf hnextlt, DynamicRingBuffer.nextIdx_pos hf ht hlt]
    rfl
  · show ((q.tail_block_ + 1) % q.blocks.length + (q.blocks.set _ _).length - q.front_block_)
        % (q.blocks.set _ _).length = q.tailPos + 1
    rw [List.length_set]
    exact DynamicRingBuffer.nextIdx_pos hf ht hlt

theorem spliceAfter_length {l : List α} {i : Nat} (h : i < l.length) (a : α) :
    (spliceAfter l i a).length = l.length + 1 := by
  simp only [spliceAfter, List.length_append, List.length_cons, List.length_take,
    List.length_drop]
  omega

theorem DynamicRingBuffer.enqueue_grow_spec [Inhabited T] {q : DynamicRingBuffer T} (e : T)
    (hf : q.front_block_ < q.blocks.length) (ht : q.tail_block_ < q.blocks.length)
    (hcap : (q.blockAt q.tailPos).hasAvailableCapacity = false)
    (hlast : q.tailPos + 1 = q.blocks.length) :
    (q.enqueue e).ringSeg = q.ringSeg ++ [(Block.create T q.buffer_size_).push e] ∧
    (q.enqueue e).front_block_
      = (if q.tail_block_ < q.front_block_ then q.front_block_ + 1 else q.front_block_) ∧
    (q.enqueue e).tail_block_ = q.tail_block_ + 1 ∧
    (q.enqueue e).blocks.length = q.blocks.length + 1 ∧
    (q.enqueue e).tailPos = q.blocks.length ∧
    (q.enqueue e).num_blocks_ = q.num_blocks_ + 1 ∧
    (q.enqueue e).buffer_size_ = q.buffer_size_ := by
  have h0 : 0 < q.blocks.length := Nat.lt_of_le_of_lt (Nat.zero_le _) hf
  have hcond : ¬ ((q.blockAt q.tailPos).hasAvailableCapacity = true) := by
    rw [hcap]; exact Bool.false_ne_true
  have hfeq : (q.tail_block_ + 1) % q.blocks.length = q.front_block_ :=
    (q.nextIdx_eq_front_iff hf ht).mpr hlast
  have hcond2 : ¬ ((q.tail_block_ + 1) % q.blocks.length ≠ q.front_block_) := by
    simp [hfeq]
  have hq : q.enqueue e = { q with
      blocks := spliceAfter q.blocks q.tail_block_ ((Block.create T q.buffer_size_).push e)
      tail_block_ := q.tail_block_ + 1
      front_block_ :=
        if q.tail_block_ < q.front_block_ then q.front_block_ + 1 else q.front_block_
      num_blocks_ := q.num_blocks_ + 1 } := by
    simp only [DynamicRingBuffer.enqueue]
    rw [DynamicRingBuffer.getD_tail hf ht, if_neg hcond, if_neg hcond2]
    rfl
  have hlen : (spliceAfter q.blocks q.tail_block_
      ((Block.create T q.buffer_size_).push e)).length = q.blocks.length + 1 :=
    spliceAfter_length ht _
  rw [hq]
  refine ⟨?_, rfl, rfl, hlen, ?_, rfl, rfl⟩
  · -- the new ring segment is the old one with the fresh block appended
    show (spliceAfter q.blocks q.tail_block_ _).rotate
        (if q.tail_block_ < q.front_block_ then q.front_block_ + 1 else q.front_block_) = _
    rcases Nat.lt_or_ge (q.tail_block_ + 1) q.blocks.length with htb | htb
    · -- the splice happens strictly inside the list; front_block_ = tail_block_ + 1
      have hfval : q.front_block_ = q.tail_block_ + 1 := by
        rw [← hfeq, Nat.mod_eq_of_lt htb]
      have hif : (if q.tail_block_ < q.front_block_ then q.front_block_ + 1 else q.front_block_)
          = q.tail_block_ + 2 := by
        rw [if_pos (by omega)]
        omega
      rw [hif]
      unfold spliceAfter
      have hA : (q.blocks.take (q.tail_block_ + 1)).length = q.tail_block_ + 1 := by
        rw [List.length_take]
        omega
      have hsplit : q.tail_block_ + 2 = (q.blocks.take (q.tail_block_ + 1)).length + 1 := by
        omega
      have hle : q.tail_block_ + 2 ≤ (q.blocks.take (q.tail_block_ + 1) ++
          (Block.create T q.buffer_size_).push e :: q.blocks.drop (q.tail_block_ + 1)).length := by
        simp only [List.length_append, List.length_cons, List.length_take, List.length_drop]
        omega
      rw [List.rotate_eq_drop_append_take hle]
      rw [hsplit, List.drop_append, List.take_append]
      have hd1 : List.drop 1 ((Block.create T q.buffer_size_).push e ::
          q.blocks.drop (q.tail_block_ + 1)) = q.blocks.drop (q.tail_block_ + 1) := rfl
      have ht1 : List.take 1 ((Block.create T q.buffer_size_).push e ::
          q.blocks.drop (q.tail_block_ + 1)) = [(Block.create T q.buffer_size_).push e] := by
        simp
      rw [hd1, ht1]
      show q.blocks.drop (q.tail_block_ + 1) ++ (q.blocks.take (q.tail_block_ + 1) ++ _) = _
      rw [← List.append_assoc]
      unfold DynamicRingBuffer.ringSeg
      rw [hfval, List.rotate_eq_drop_append_take (by omega)]
    · -- the producer block is the physically last block; front_block_ = 0
      have htb' : q.tail_block_ + 1 = q.blocks.length := by omega
      have hfval : q.front_block_ = 0 := by
        rw [← hfeq, htb', Nat.mod_self]
      have hif : (if q.tail_block_ < q.front_block_ then q.front_block_ + 1 else q.front_block_)
          = 0 := by
        rw [if_neg (by omega)]
        exact hfval
      rw [hif, List.rotate_zero]
      unfold spliceAfter
      rw [htb', List.take_length, List.drop_length]
      unfold DynamicRingBuffer.ringSeg
      rw [hfval, List.rotate_zero]
  · -- the producer position in the new segment is the old length
    show (q.tail_block_ + 1 + (spliceAfter q.blocks q.tail_block_ _).length -
        (if q.tail_block_ < q.front_block_ then q.front_block_ + 1 else q.front_block_))
        % (spliceAfter q.blocks q.tail_block_ _).length = q.blocks.length
    rw [hlen]
    rcases Nat.lt_or_ge (q.tail_block_ + 1) q.blocks.length with htb | htb
    · have hfval : q.front_block_ = q.tail_block_ + 1 := by
        rw [← hfeq, Nat.mod_eq_of_lt htb]
      rw [if_pos (by omega)]
      have : q.tail_block_ + 1 + (q.blocks.length + 1) - (q.front_block_ + 1)
          = q.blocks.length := by omega
      rw [this, Nat.mod_eq_of_lt (by omega)]
    · have htb' : q.tail_block_ + 1 = q.blocks.length := by omega
      have hfval : q.front_block_ = 0 := by
        rw [← hfeq, htb', Nat.mod_self]
      rw [if_neg (by omega), hfval]
      have : q.tail_block_ + 1 + (q.blocks.length + 1) - 0
          = q.blocks.length + (q.blocks.length + 1) := by omega
      rw [this, Nat.add_mod_right, Nat.mod_eq_of_lt (by omega)]

/-! ### Branch characterisations of dequeue -/

theorem DynamicRingBuffer.dequeue_nonempty_spec [Inhabited T] {q : DynamicRingBuffer T}
    (hf : q.front_block_ < q.blocks.length)
    (hne : (q.blockAt 0).empty = false) :
    (q.dequeue).1 = some ((q.blockAt 0).get ((q.blockAt 0).head_ + 1)) ∧
    (q.dequeue).2.ringSeg = q.ringSeg.set 0 ((q.blockAt 0).advanceHead) ∧
    (q.dequeue).2.front_block_ = q.front_block_ ∧
    (q.dequeue).2.tail_block_ = q.tail_block_ ∧
    (q.dequeue).2.blocks.length = q.blocks.length ∧
    (q.dequeue).2.tailPos = q.tailPos ∧
    (q.dequeue).2.num_blocks_ = q.num_blocks_ ∧
    (q.dequeue).2.buffer_size_ = q.buffer_size_ := by
  have hcond : (!(q.blockAt 0).empty) = true := by rw [hne]; rfl
  have hq : q.dequeue = (some ((q.blockAt 0).get ((q.blockAt 0).head_ + 1)),
      { q with blocks := q.blocks.set q.front_block_ ((q.blockAt 0).advanceHead) }) := by
    simp only [DynamicRingBuffer.dequeue]
    rw [DynamicRingBuffer.getD_front hf, if_pos hcond]
  rw [hq]
  refine ⟨rfl, ?_, rfl, rfl, List.length_set _ _ _, ?_, rfl, rfl⟩
  · show (q.blocks.set _ _).rotate q.front_block_ = _
    rw [rotate_set hf hf]
    have h1 : (q.front_block_ + q.blocks.length - q.front_block_) % q.blocks.length = 0 := by
      have h2 : q.front_block_ + q.blocks.length - q.front_block_ = q.blocks.length := by omega
      rw [h2, Nat.mod_self]
    rw [h1]
    rfl
  · show (q.tail_block_ + (q.blocks.set _ _).length - q.front_block_)
        % (q.blocks.set _ _).length = q.tailPos
    rw [List.length_set]
    rfl

theorem DynamicRingBuffer.dequeue_advance_spec [Inhabited T] {q : DynamicRingBuffer T}
    (hf : q.front_block_ < q.blocks.length) (ht : q.tail_block_ < q.blocks.length)
    (hemp : (q.blockAt 0).empty = true) (hnz : q.tailPos ≠ 0) :
    (q.dequeue).1 = some ((q.blockAt 1).get ((q.blockAt 1).head_ + 1)) ∧
    (q.dequeue).2.ringSeg = (q.ringSeg.rotate 1).set 0 ((q.blockAt 1).advanceHead) ∧
    (q.dequeue).2.front_block_ = (q.front_block_ + 1) % q.blocks.length ∧
    (q.dequeue).2.tail_block_ = q.tail_block_ ∧
    (q.dequeue).2.blocks.length = q.blocks.length ∧
    (q.dequeue).2.tailPos = q.tailPos - 1 ∧
    (q.dequeue).2.num_blocks_ = q.num_blocks_ ∧
    (q.dequeue).2.buffer_size_ = q.buffer_size_ := by
  have h0 : 0 < q.blocks.length := Nat.lt_of_le_of_lt (Nat.zero_le _) hf
  have hlt2 : q.tailPos < q.blocks.length := DynamicRingBuffer.tailPos_lt h0
  have h1lt : 1 < q.blocks.length := by omega
  have hcond1 : ¬ ((!(q.blockAt 0).empty) = true) := by simp [hemp]
  have hcond2 : q.front_block_ ≠ q.tail_block_ := by
    intro h
    exact hnz ((q.tailPos_eq_zero_iff hf ht).mpr h)
  have hnextlt : (q.front_block_ + 1) % q.blocks.length < q.blocks.length := Nat.mod_lt _ h0
  have hgd : q.blocks.getD ((q.front_block_ + 1) % q.blocks.length) default = q.blockAt 1 := by
    rw [q.blockAt_eq h1lt, Nat.add_comm]
  have hq : q.dequeue = (some ((q.blockAt 1).get ((q.blockAt 1).head_ + 1)),
      { q with
          front_block_ := (q.front_block_ + 1) % q.blocks.length
          blocks := q.blocks.set ((q.front_block_ + 1) % q.blocks.length)
            ((q.blockAt 1).advanceHead) }) := by
    simp only [DynamicRingBuffer.dequeue]
    rw [DynamicRingBuffer.getD_front hf, if_neg hcond1, if_pos hcond2, hgd]
  rw [hq]
  refine ⟨rfl, ?_, rfl, rfl, List.length_set _ _ _, ?_, rfl, rfl⟩
  · show (q.blocks.set _ _).rotate ((q.front_block_ + 1) % q.blocks.length) = _
    rw [rotate_set hnextlt hnextlt]
    have h1 : ((q.front_block_ + 1) % q.blocks.length + q.blocks.length -
        (q.front_block_ + 1) % q.blocks.length) % q.blocks.length = 0 := by
      have h2 : (q.front_block_ + 1) % q.blocks.length + q.blocks.length -
          (q.front_block_ + 1) % q.blocks.length = q.blocks.length := by omega
      rw [h2, Nat.mod_self]
    rw [h1, List.rotate_mod, ← List.rotate_rotate]
    rfl
  · show (q.tail_block_ + (q.blocks.set _ _).length - (q.front_block_ + 1) % q.blocks.length)
        % (q.blocks.set _ _).length = q.tailPos - 1
    rw [List.length_set]
    refine mod_sub_mod hnextlt (by omega) ?_
    have e1 : Nat.ModEq q.blocks.length
        ((q.front_block_ + 1) % q.blocks.length + (q.tailPos - 1))
        (q.front_block_ + 1 + (q.tailPos - 1)) :=
      Nat.ModEq.add_right _ (Nat.mod_modEq _ _)
    have e2 : q.front_block_ + 1 + (q.tailPos - 1) = q.tailPos + q.front_block_ := by omega
    have e3 : Nat.ModEq q.blocks.length (q.tailPos + q.front_block_) q.tail_block_ := by
      show (q.tailPos + q.front_block_) % q.blocks.length = q.tail_block_ % q.blocks.length
      rw [q.tailPos_add_front hf ht, Nat.mod_eq_of_lt ht]
    exact e1.trans (e2 ▸ e3)

theorem DynamicRingBuffer.dequeue_fail_spec [Inhabited T] {q : DynamicRingBuffer T}
    (hf : q.front_block_ < q.blocks.length) (ht : q.tail_block_ < q.blocks.length)
    (hemp : (q.blockAt 0).empty = true) (hz : q.tailPos = 0) :
    q.dequeue = (none, q) := by
  have hcond1 : ¬ ((!(q.blockAt 0).empty) = true) := by simp [hemp]
  have hcond2 : ¬ (q.front_block_ ≠ q.tail_block_) := by
    intro h
    exact h ((q.tailPos_eq_zero_iff hf ht).mp hz)
  simp only [DynamicRingBuffer.dequeue]
  rw [DynamicRingBuffer.getD_front hf, if_neg hcond1, if_neg hcond2]

/-! ### Slot indexing -/

theorem getD_set_self {l : List α} {i : Nat} (h : i < l.length) (a d : α) :
    (l.set i a).getD i d = a := by
  have h' : i < (l.set i a).length := by simpa using h
  rw [List.getD_eq_getElem _ _ h', List.getElem_set, if_pos rfl]

theorem getD_set_ne {l : List α} {i j : Nat} (h : i ≠ j) (a d : α) :
    (l.set i a).getD j d = l.getD j d := by
  rcases Nat.lt_or_ge j l.length with hj | hj
  · have hj' : j < (l.set i a).length := by simpa using hj
    rw [List.getD_eq_getElem _ _ hj', List.getD_eq_getElem _ _ hj, List.getElem_set, if_neg h]
  · have hj' : (l.set i a).length ≤ j := by simpa using hj
    rw [List.getD_eq_default _ _ hj', List.getD_eq_default _ _ hj]

theorem seqIndex_eq_mod {s : Int} (hs : 0 ≤ s) {k : Nat} (hk : k ≤ 64) :
    seqIndex s (2 ^ k - 1) = s.toNat % 2 ^ k := by
  obtain ⟨n, rfl⟩ := Int.eq_ofNat_of_zero_le hs
  unfold seqIndex
  have h1 : ((n : Int).emod (2 ^ 64)).toNat = n % 2 ^ 64 := by
    show (((n : Int)) % (2 ^ 64)).toNat = n % 2 ^ 64
    omega
  rw [h1, Nat.and_pow_two_sub_one_eq_mod, Nat.mod_mod_of_dvd _ (pow_dvd_pow 2 hk)]
  simp

theorem seqIndex_ne {s1 s2 : Int} {k : Nat} (h1 : 0 ≤ s1) (h2 : s1 < s2)
    (h3 : s2 - s1 < ((2 ^ k : Nat) : Int)) (hk : k ≤ 64) :
    seqIndex s1 (2 ^ k - 1) ≠ seqIndex s2 (2 ^ k - 1) := by
  rw [seqIndex_eq_mod h1 hk, seqIndex_eq_mod (le_of_lt (lt_of_le_of_lt h1 h2)) hk]
  intro h
  have hn1 : s1.toNat < s2.toNat := by omega
  have hd : s2.toNat - s1.toNat < 2 ^ k := by omega
  have hdvd : 2 ^ k ∣ (s2.toNat - s1.toNat) :=
    (Nat.modEq_iff_dvd' (le_of_lt hn1)).mp h
  have := Nat.le_of_dvd (by omega) hdvd
  omega

theorem seqIndex_lt {s : Int} {k : Nat} (hk : k ≤ 64) (hs : 0 ≤ s) :
    seqIndex s (2 ^ k - 1) < 2 ^ k := by
  rw [seqIndex_eq_mod hs hk]
  exact Nat.mod_lt _ (Nat.pos_pow_of_pos k (by omega))

/-! ### Pending events of a block -/

theorem Block.pending_length [Inhabited T] (b : Block T) :
    b.pending.length = (b.tail_ - b.head_).toNat := by
  unfold Block.pending
  rw [List.length_map, List.length_range]

theorem Block.pending_of_drained [Inhabited T] {b : Block T} (h : b.tail_ = b.head_) :
    b.pending = [] := by
  unfold Block.pending
  rw [h]
  simp

theorem Block.pending_push [Inhabited T] {b : Block T} {k : Nat} (e : T) (hk : k ≤ 64)
    (hsize : b.size_ = 2 ^ k)
    (hlen : b.events_.length = 2 ^ k)
    (hhead : (-1 : Int) ≤ b.head_)
    (hht : b.head_ ≤ b.tail_)
    (hroom : b.tail_ - b.head_ < ((2 ^ k : Nat) : Int)) :
    (b.push e).pending = b.pending ++ [e] := by
  have hmask : b.mask = 2 ^ k - 1 := by rw [Block.mask, hsize]
  have htn : (b.push e).tail_ = b.tail_ + 1 := rfl
  have hhn : (b.push e).head_ = b.head_ := rfl
  have hev : (b.push e).events_ = b.events_.set (seqIndex (b.tail_ + 1) b.mask) e := rfl
  have hmask2 : (b.push e).mask = b.mask := rfl
  set n := (b.tail_ - b.head_).toNat with hn
  have hcount : ((b.push e).tail_ - (b.push e).head_).toNat = n + 1 := by
    rw [htn, hhn]
    omega
  unfold Block.pending
  rw [hcount, hhn, ← hn, List.range_succ, List.map_append]
  congr 1
  · -- the first n slots are untouched by the write at tail_ + 1
    refine List.map_congr_left ?_
    intro i hi
    have hi' : i < n := List.mem_range.mp hi
    unfold Block.get
    rw [hev, hmask2, hmask]
    refine getD_set_ne ?_ _ _
    refine (@seqIndex_ne (b.head_ + 1 + (i : Int)) (b.tail_ + 1) k ?_ ?_ ?_ hk).symm
    · omega
    · omega
    · omega
  · -- the slot written at tail_ + 1 holds the new event
    show [(b.push e).get (b.head_ + 1 + (n : Int))] = [e]
    congr 1
    have harg : b.head_ + 1 + (n : Int) = b.tail_ + 1 := by omega
    unfold Block.get
    rw [harg, hev, hmask2, hmask]
    refine getD_set_self ?_ _ _
    rw [hlen]
    exact seqIndex_lt hk (by omega)

theorem Block.pending_pop [Inhabited T] {b : Block T} (hlt : b.head_ < b.tail_) :
    b.pending = b.get (b.head_ + 1) :: (b.advanceHead).pending := by
  have hn : (b.tail_ - b.head_).toNat = ((b.tail_ - (b.head_ + 1)).toNat) + 1 := by omega
  have hhn : (b.advanceHead).head_ = b.head_ + 1 := rfl
  have htn : (b.advanceHead).tail_ = b.tail_ := rfl
  have hev : (b.advanceHead).events_ = b.events_ := rfl
  have hmask2 : (b.advanceHead).mask = b.mask := rfl
  unfold Block.pending
  rw [hhn, htn, hn, List.range_succ_eq_map, List.map_cons, List.map_map]
  congr 1
  · show b.get (b.head_ + 1 + ((0 : Nat) : Int)) = b.get (b.head_ + 1)
    norm_num
  · refine List.map_congr_left ?_
    intro i _
    show b.get (b.head_ + 1 + ((Nat.succ i : Nat) : Int))
        = (b.advanceHead).get (b.head_ + 1 + 1 + (i : Int))
    unfold Block.get
    rw [hev, hmask2]
    congr 2
    push_cast
    ring

/-! ### Block shape facts -/

theorem BlockShape.push {cap : Nat} {b : Block T} (h : BlockShape cap b)
    (hroom : b.tail_ - b.head_ < (cap : Int)) (e : T) :
    BlockShape cap (b.push e) := by
  obtain ⟨h1, h2, h3, h4, h5⟩ := h
  refine ⟨h1, ?_, h3, by show b.head_ ≤ b.tail_ + 1; omega,
    by show b.tail_ + 1 ≤ b.head_ + cap; omega⟩
  show (b.events_.set _ _).length = cap
  rw [List.length_set]
  exact h2

theorem BlockShape.advanceHead {cap : Nat} {b : Block T} (h : BlockShape cap b)
    (hlt : b.head_ < b.tail_) :
    BlockShape cap (b.advanceHead) := by
  obtain ⟨h1, h2, h3, h4, h5⟩ := h
  exact ⟨h1, h2, by show (-1 : Int) ≤ b.head_ + 1; omega,
    by show b.head_ + 1 ≤ b.tail_; omega,
    by show b.tail_ ≤ b.head_ + 1 + cap; omega⟩

theorem BlockShape.create (T : Type) [Inhabited T] (cap : Nat) :
    BlockShape cap (Block.create T cap) :=
  ⟨rfl, List.length_replicate _ _, by norm_num [Block.create, INITIAL_CURSOR_VALUE],
    le_refl _, by show (-1 : Int) ≤ -1 + cap; omega⟩

/-! ### Flattening helpers for the abstract queue -/

theorem getD_map_pending [Inhabited T] {R : List (Block T)} {j : Nat} (hj : j < R.length) :
    (R.map Block.pending).getD j [] = (R.getD j default).pending := by
  have hj' : j < (R.map Block.pending).length := by simpa using hj
  rw [List.getD_eq_getElem _ _ hj', List.getD_eq_getElem _ _ hj, List.getElem_map]

theorem flatten_eq_nil_of {L : List (List α)} (h : ∀ j, j < L.length → L.getD j [] = []) :
    L.flatten = [] := by
  induction L with
  | nil => rfl
  | cons a l ih =>
    have h0 : a = [] := h 0 (by simp)
    rw [List.flatten_cons, h0, List.nil_append]
    refine ih ?_
    intro j hj
    have h1 := h (j + 1) (by simpa using Nat.succ_lt_succ hj)
    rwa [List.getD_cons_succ] at h1

theorem flatten_set_append {L : List (List α)} {t : Nat} (ht : t < L.length)
    (hnil : ∀ j, t < j → j < L.length → L.getD j [] = []) (x : List α) :
    (L.set t (L.getD t [] ++ x)).flatten = L.flatten ++ x := by
  have hL : L = L.take t ++ L.getD t [] :: L.drop (t + 1) := by
    rw [List.getD_eq_getElem _ _ ht]
    conv_lhs => rw [← List.take_append_drop t L, List.drop_eq_getElem_cons ht]
  have hset : L.set t (L.getD t [] ++ x) = L.take t ++ (L.getD t [] ++ x) :: L.drop (t + 1) :=
    List.set_eq_take_cons_drop _ ht
  have hdrop : (L.drop (t + 1)).flatten = [] := by
    refine flatten_eq_nil_of ?_
    intro j hj
    have hjlen : t + 1 + j < L.length := by
      rw [List.length_drop] at hj
      omega
    have heq : (L.drop (t + 1)).getD j [] = L.getD (t + 1 + j) [] := by
      rw [List.getD_eq_getElem _ _ hj, List.getD_eq_getElem _ _ hjlen]
      exact List.getElem_drop _
    rw [heq]
    exact hnil (t + 1 + j) (by omega) hjlen
  rw [hset]
  conv_rhs => rw [hL]
  rw [List.flatten_append, List.flatten_append, List.flatten_cons, List.flatten_cons, hdrop]
  simp [List.append_assoc]

theorem flatten_set_zero {L : List (List α)} (h0 : 0 < L.length) (xs : List α) :
    (L.set 0 xs).flatten = xs ++ (L.drop 1).flatten := by
  rcases L with _ | ⟨a, l⟩
  · simp at h0
  · rfl

theorem flatten_head_decomp {L : List (List α)} (h0 : 0 < L.length) :
    L.flatten = L.getD 0 [] ++ (L.drop 1).flatten := by
  rcases L with _ | ⟨a, l⟩
  · simp at h0
  · rfl

/-! ### Small decoding helpers -/

theorem Block.hasAvailableCapacity_true_iff (b : Block T) :
    b.hasAvailableCapacity = true ↔ b.tail_ + 1 - (b.size_ : Int) ≤ b.head_ := by
  unfold Block.hasAvailableCapacity
  exact decide_eq_true_iff

theorem Block.empty_true_iff (b : Block T) : b.empty = true ↔ b.tail_ = b.head_ := by
  unfold Block.empty
  exact beq_iff_eq

theorem DynamicRingBuffer.length_ringSeg (q : DynamicRingBuffer T) :
    q.ringSeg.length = q.blocks.length :=
  List.length_rotate _ _

theorem getD_append_left {l1 l2 : List α} {i : Nat} (h : i < l1.length) (d : α) :
    (l1 ++ l2).getD i d = l1.getD i d := by
  have h' : i < (l1 ++ l2).length := by
    rw [List.length_append]
    omega
  rw [List.getD_eq_getElem _ _ h', List.getD_eq_getElem _ _ h, List.getElem_append, dif_pos h]

theorem getD_append_len {l1 : List α} (x : α) (d : α) :
    (l1 ++ [x]).getD l1.length d = x := by
  have h' : l1.length < (l1 ++ [x]).length := by
    simp
  rw [List.getD_eq_getElem _ _ h', List.getElem_append, dif_neg (Nat.lt_irrefl _)]
  simp

/-! ### The producer step: invariant preservation and abstraction -/

theorem DynamicRingBuffer.enqueue_step [Inhabited T] {q : DynamicRingBuffer T} (e : T)
    (hInv : q.Inv) :
    (q.enqueue e).Inv ∧
    (q.enqueue e).absQueue = q.absQueue ++ [e] ∧
    (q.enqueue e).buffer_size_ = q.buffer_size_ ∧
    ((q.enqueue e).num_blocks_ = q.num_blocks_ ∨
      (q.enqueue e).num_blocks_ = q.num_blocks_ + 1) := by
  obtain ⟨h0, hf, ht, hnum, ⟨k, hk, hbuf⟩, hblocks⟩ := hInv
  have htp : q.tailPos < q.blocks.length := DynamicRingBuffer.tailPos_lt h0
  have hcappos : 0 < q.buffer_size_ := by
    rw [hbuf]
    exact Nat.pos_pow_of_pos _ (by omega)
  by_cases hcap : (q.blockAt q.tailPos).hasAvailableCapacity = true
  · -- branch 1: room in the current producer block
    obtain ⟨hring, hfr, htl, hlen, htpos, hnb, hbs⟩ := q.enqueue_avail_spec e hf ht hcap
    obtain ⟨hs1, hs2, hs3, hs4, hs5⟩ := (hblocks _ htp).1
    have hc := (Block.hasAvailableCapacity_true_iff _).mp hcap
    have hroom : (q.blockAt q.tailPos).tail_ - (q.blockAt q.tailPos).head_
        < (q.buffer_size_ : Int) := by omega
    have hba : ∀ i, i < q.blocks.length → (q.enqueue e).blockAt i =
        (if q.tailPos = i then (q.blockAt q.tailPos).push e else q.blockAt i) := by
      intro i hi
      unfold DynamicRingBuffer.blockAt
      rw [hring]
      by_cases hit : q.tailPos = i
      · rw [if_pos hit, ← hit]
        exact getD_set_self (by rw [DynamicRingBuffer.length_ringSeg]; exact htp) _ _
      · rw [if_neg hit]
        exact getD_set_ne hit _ _
    refine ⟨⟨?_, ?_, ?_, ?_, ⟨k, hk, ?_⟩, ?_⟩, ?_, hbs, Or.inl hnb⟩
    · rw [hlen]; exact h0
    · rw [hfr, hlen]; exact hf
    · rw [htl, hlen]; exact ht
    · rw [hnb, hlen]; exact hnum
    · rw [hbs, hbuf]
    · intro i hi
      rw [hlen] at hi
      rw [hbs, htpos, hba i hi]
      by_cases hit : q.tailPos = i
      · rw [if_pos hit]
        refine ⟨BlockShape.push ⟨hs1, hs2, hs3, hs4, hs5⟩ hroom e, ?_, ?_⟩
        · intro hgt; omega
        · intro _ _
          show (q.blockAt q.tailPos).head_ < (q.blockAt q.tailPos).tail_ + 1
          omega
      · rw [if_neg hit]
        exact hblocks i hi
    · unfold DynamicRingBuffer.absQueue
      rw [hring, List.map_set]
      have hpend : Block.pending ((q.blockAt q.tailPos).push e)
          = (q.ringSeg.map Block.pending).getD q.tailPos [] ++ [e] := by
        rw [getD_map_pending (by rw [DynamicRingBuffer.length_ringSeg]; exact htp)]
        refine Block.pending_push e hk (by rw [hs1, hbuf]) (by rw [hs2, hbuf]) hs3 hs4 ?_
        rw [hbuf] at hroom
        exact hroom
      rw [hpend]
      refine flatten_set_append
        (by rw [List.length_map, DynamicRingBuffer.length_ringSeg]; exact htp) ?_ [e]
      intro j hj hjlen
      rw [List.length_map, DynamicRingBuffer.length_ringSeg] at hjlen
      rw [getD_map_pending (by rw [DynamicRingBuffer.length_ringSeg]; exact hjlen)]
      exact Block.pending_of_drained ((hblocks j hjlen).2.1 hj)
  · -- the producer block is full
    have hcap' : (q.blockAt q.tailPos).hasAvailableCapacity = false :=
      Bool.eq_false_iff.mpr hcap
    rcases Nat.lt_or_ge (q.tailPos + 1) q.blocks.length with hlt | hge
    · -- branch 2: reuse the drained block ahead
      obtain ⟨hring, hfr, htl, hlen, htpos, hnb, hbs⟩ := q.enqueue_reuse_spec e hf ht hcap' hlt
      have hidle : (q.blockAt (q.tailPos + 1)).tail_ = (q.blockAt (q.tailPos + 1)).head_ :=
        (hblocks _ hlt).2.1 (by omega)
      obtain ⟨hs1, hs2, hs3, hs4, hs5⟩ := (hblocks _ hlt).1
      have hroom : (q.blockAt (q.tailPos + 1)).tail_ - (q.blockAt (q.tailPos + 1)).head_
          < (q.buffer_size_ : Int) := by
        rw [hidle]
        omega
      have hba : ∀ i, i < q.blocks.length → (q.enqueue e).blockAt i =
          (if q.tailPos + 1 = i then (q.blockAt (q.tailPos + 1)).push e else q.blockAt i) := by
        intro i hi
        unfold DynamicRingBuffer.blockAt
        rw [hring]
        by_cases hit : q.tailPos + 1 = i
        · rw [if_pos hit, ← hit]
          exact getD_set_self (by rw [DynamicRingBuffer.length_ringSeg]; exact hlt) _ _
        · rw [if_neg hit]
          exact getD_set_ne hit _ _
      refine ⟨⟨?_, ?_, ?_, ?_, ⟨k, hk, ?_⟩, ?_⟩, ?_, hbs, Or.inl hnb⟩
      · rw [hlen]; exact h0
      · rw [hfr, hlen]; exact hf
      · rw [htl, hlen]; exact Nat.mod_lt _ h0
      · rw [hnb, hlen]; exact hnum
      · rw [hbs, hbuf]
      · intro i hi
        rw [hlen] at hi
        rw [hbs, htpos, hba i hi]
        by_cases hit : q.tailPos + 1 = i
        · rw [if_pos hit]
          refine ⟨BlockShape.push ⟨hs1, hs2, hs3, hs4, hs5⟩ hroom e, ?_, ?_⟩
          · intro hgt; omega
          · intro _ _
            show (q.blockAt (q.tailPos + 1)).head_ < (q.blockAt (q.tailPos + 1)).tail_ + 1
            omega
        · rw [if_neg hit]
          obtain ⟨hsh, hid, hst⟩ := hblocks i hi
          exact ⟨hsh, fun hgt => hid (by omega), fun h1 h2 => hst h1 (by omega)⟩
      · unfold DynamicRingBuffer.absQueue
        rw [hring, List.map_set]
        have hpend : Block.pending ((q.blockAt (q.tailPos + 1)).push e)
            = (q.ringSeg.map Block.pending).getD (q.tailPos + 1) [] ++ [e] := by
          rw [getD_map_pending (by rw [DynamicRingBuffer.length_ringSeg]; exact hlt)]
          refine Block.pending_push e hk (by rw [hs1, hbuf]) (by rw [hs2, hbuf]) hs3 hs4 ?_
          rw [hbuf] at hroom
          exact hroom
        rw [hpend]
        refine flatten_set_append
          (by rw [List.length_map, DynamicRingBuffer.length_ringSeg]; exact hlt) ?_ [e]
        intro j hj hjlen
        rw [List.length_map, DynamicRingBuffer.length_ringSeg] at hjlen
        rw [getD_map_pending (by rw [DynamicRingBuffer.length_ringSeg]; exact hjlen)]
        exact Block.pending_of_drained ((hblocks j hjlen).2.1 (by omega))
    · -- branch 3: grow the ring with a freshly allocated block
      have hlast : q.tailPos + 1 = q.blocks.length := by omega
      obtain ⟨hring, hfr, htl, hlen, htpos, hnb, hbs⟩ := q.enqueue_grow_spec e hf ht hcap' hlast
      have hnewshape : BlockShape q.buffer_size_ ((Block.create T q.buffer_size_).push e) := by
        refine BlockShape.push (BlockShape.create T q.buffer_size_) ?_ e
        show ((-1 : Int)) - (-1) < (q.buffer_size_ : Int)
        omega
      have hba : ∀ i, i < q.blocks.length → (q.enqueue e).blockAt i = q.blockAt i := by
        intro i hi
        unfold DynamicRingBuffer.blockAt
        rw [hring]
        exact getD_append_left (by rw [DynamicRingBuffer.length_ringSeg]; exact hi) _
      have hbalen : (q.enqueue e).blockAt q.blocks.length
          = (Block.create T q.buffer_size_).push e := by
        unfold DynamicRingBuffer.blockAt
        rw [hring]
        have := @getD_append_len (Block T) q.ringSeg ((Block.create T q.buffer_size_).push e)
          (default : Block T)
        rwa [DynamicRingBuffer.length_ringSeg] at this
      refine ⟨⟨?_, ?_, ?_, ?_, ⟨k, hk, ?_⟩, ?_⟩, ?_, hbs, Or.inr hnb⟩
      · rw [hlen]; omega
      · rw [hfr, hlen]
        by_cases hc : q.tail_block_ < q.front_block_
        · rw [if_pos hc]; omega
        · rw [if_neg hc]; omega
      · rw [htl, hlen]; omega
      · rw [hnb, hlen, hnum]
      · rw [hbs, hbuf]
      · intro i hi
        rw [hlen] at hi
        rw [hbs, htpos]
        rcases Nat.lt_or_ge i q.blocks.length with hilt | hige
        · rw [hba i hilt]
          obtain ⟨hsh, hid, hst⟩ := hblocks i hilt
          refine ⟨hsh, fun hgt => absurd hgt (by omega), fun h1 h2 => hst h1 (by omega)⟩
        · have hieq : i = q.blocks.length := by omega
          rw [hieq, hbalen]
          refine ⟨hnewshape, fun hgt => absurd hgt (by omega), fun _ _ => ?_⟩
          show ((-1 : Int)) < (-1) + 1
          omega
      · unfold DynamicRingBuffer.absQueue
        rw [hring, List.map_append, List.flatten_append]
        have hpend : Block.pending ((Block.create T q.buffer_size_).push e) = [e] := by
          have h1 := @Block.pending_push T _ (Block.create T q.buffer_size_) k e hk
            (by show q.buffer_size_ = 2 ^ k; rw [hbuf])
            (by show (List.replicate q.buffer_size_ (default : T)).length = 2 ^ k
                rw [List.length_replicate, hbuf])
            (by show (-1 : Int) ≤ -1; omega)
            (by show (-1 : Int) ≤ -1; omega)
            (by show ((-1 : Int)) - (-1) < ((2 ^ k : Nat) : Int); omega)
          rw [h1, Block.pending_of_drained (by rfl)]
          rfl
        rw [show List.map Block.pending [(Block.create T q.buffer_size_).push e]
            = [[e]] from by rw [List.map_cons, List.map_nil, hpend]]
        rfl

/-! ### The consumer step -/

theorem DynamicRingBuffer.pending_nil_of_absQueue_nil [Inhabited T]
    {q : DynamicRingBuffer T} (habs : q.absQueue = []) :
    ∀ i, i < q.blocks.length → (q.blockAt i).pending = [] := by
  intro i hi
  have hi' : i < q.ringSeg.length := by
    rw [DynamicRingBuffer.length_ringSeg]
    exact hi
  have hmem : (q.blockAt i).pending ∈ q.ringSeg.map Block.pending := by
    refine List.mem_map_of_mem Block.pending ?_
    unfold DynamicRingBuffer.blockAt
    rw [List.getD_eq_getElem _ _ hi']
    exact List.getElem_mem hi'
  exact List.flatten_eq_nil_iff.mp habs _ hmem

theorem DynamicRingBuffer.dequeue_nil [Inhabited T] {q : DynamicRingBuffer T}
    (hInv : q.Inv) (habs : q.absQueue = []) : q.dequeue = (none, q) := by
  obtain ⟨h0, hf, ht, hnum, ⟨k, hk, hbuf⟩, hblocks⟩ := hInv
  have htp : q.tailPos < q.blocks.length := DynamicRingBuffer.tailPos_lt h0
  have hpend := q.pending_nil_of_absQueue_nil habs
  have hdr0 : (q.blockAt 0).tail_ = (q.blockAt 0).head_ := by
    have hl := congrArg List.length (hpend 0 h0)
    rw [Block.pending_length] at hl
    have hs4 := (hblocks 0 h0).1.2.2.2.1
    simp only [List.length_nil] at hl
    omega
  have hempty : (q.blockAt 0).empty = true := (Block.empty_true_iff _).mpr hdr0
  have htp0 : q.tailPos = 0 := by
    by_contra hnz
    have h1len : 1 < q.blocks.length := by omega
    have hstrict := (hblocks 1 h1len).2.2 (le_refl 1) (by omega)
    have hl := congrArg List.length (hpend 1 h1len)
    rw [Block.pending_length] at hl
    simp only [List.length_nil] at hl
    omega
  exact DynamicRingBuffer.dequeue_fail_spec hf ht hempty htp0

theorem DynamicRingBuffer.dequeue_cons [Inhabited T] {q : DynamicRingBuffer T}
    (hInv : q.Inv) {x : T} {xs : List T} (habs : q.absQueue = x :: xs) :
    (q.dequeue).1 = some x ∧
    (q.dequeue).2.Inv ∧
    (q.dequeue).2.absQueue = xs ∧
    (q.dequeue).2.buffer_size_ = q.buffer_size_ ∧
    (q.dequeue).2.num_blocks_ = q.num_blocks_ ∧
    (q.dequeue).2.blocks.length = q.blocks.length := by
  obtain ⟨h0, hf, ht, hnum, ⟨k, hk, hbuf⟩, hblocks⟩ := hInv
  have htp : q.tailPos < q.blocks.length := DynamicRingBuffer.tailPos_lt h0
  have hrs0 : 0 < q.ringSeg.length := by
    rw [DynamicRingBuffer.length_ringSeg]
    exact h0
  have habs' : q.absQueue
      = (q.blockAt 0).pending ++ ((q.ringSeg.map Block.pending).drop 1).flatten := by
    unfold DynamicRingBuffer.absQueue
    rw [flatten_head_decomp (by rw [List.length_map]; exact hrs0),
      getD_map_pending hrs0]
    rfl
  by_cases hnil0 : (q.blockAt 0).pending = []
  · -- the consumer block is drained: dequeue advances into the next block
    have hdr0 : (q.blockAt 0).tail_ = (q.blockAt 0).head_ := by
      have hl := congrArg List.length hnil0
      rw [Block.pending_length] at hl
      have hs4 := (hblocks 0 h0).1.2.2.2.1
      simp only [List.length_nil] at hl
      omega
    have hempty : (q.blockAt 0).empty = true := (Block.empty_true_iff _).mpr hdr0
    have hnz : q.tailPos ≠ 0 := by
      intro htp0
      have : q.absQueue = [] := by
        unfold DynamicRingBuffer.absQueue
        refine flatten_eq_nil_of ?_
        intro j hj
        rw [List.length_map, DynamicRingBuffer.length_ringSeg] at hj
        rw [getD_map_pending (by rw [DynamicRingBuffer.length_ringSeg]; exact hj)]
        rcases Nat.eq_zero_or_pos j with hj0 | hjpos
        · rw [hj0]
          exact hnil0
        · exact Block.pending_of_drained ((hblocks j hj).2.1 (by omega))
      rw [habs] at this
      exact List.cons_ne_nil _ _ this
    have h1len : 1 < q.blocks.length := by omega
    have hstrict : (q.blockAt 1).head_ < (q.blockAt 1).tail_ :=
      (hblocks 1 h1len).2.2 (le_refl 1) (by omega)
    obtain ⟨hres, hring, hfr, htl, hlen, htpos, hnb, hbs⟩ :=
      q.dequeue_advance_spec hf ht hempty hnz
    -- expose the first two blocks of the ring segment
    rcases hR : q.ringSeg with _ | ⟨a, l⟩
    · rw [hR] at hrs0
      simp at hrs0
    rcases hl' : l with _ | ⟨b, R3⟩
    · have : q.ringSeg.length = 1 := by rw [hR, hl']; rfl
      rw [DynamicRingBuffer.length_ringSeg] at this
      omega
    rw [hl'] at hR
    have hb0 : q.blockAt 0 = a := by
      unfold DynamicRingBuffer.blockAt
      rw [hR, List.getD_cons_zero]
    have hb1 : q.blockAt 1 = b := by
      unfold DynamicRingBuffer.blockAt
      rw [hR, List.getD_cons_succ, List.getD_cons_zero]
    have hlen3 : q.blocks.length = R3.length + 2 := by
      rw [← DynamicRingBuffer.length_ringSeg, hR]
      simp
    have hpop : b.pending = b.get (b.head_ + 1) :: (b.advanceHead).pending :=
      Block.pending_pop (hb1 ▸ hstrict)
    have habs2 : q.absQueue = b.pending ++ (R3.map Block.pending).flatten := by
      unfold DynamicRingBuffer.absQueue
      rw [hR, List.map_cons, List.map_cons, List.flatten_cons, List.flatten_cons,
        show a.pending = [] from hb0 ▸ hnil0, List.nil_append]
    have hx : x = b.get (b.head_ + 1) := by
      rw [habs, hpop] at habs2
      rw [List.cons_append] at habs2
      exact (List.cons_eq_cons.mp habs2).1
    have hxs : xs = (b.advanceHead).pending ++ (R3.map Block.pending).flatten := by
      rw [habs, hpop] at habs2
      rw [List.cons_append] at habs2
      exact (List.cons_eq_cons.mp habs2).2
    have hring' : (q.dequeue).2.ringSeg = b.advanceHead :: (R3 ++ [a]) := by
      rw [hring, hR, List.rotate_cons_succ, List.rotate_zero, hb1, List.cons_append,
        List.set_cons_zero]
    refine ⟨by rw [hres, hb1, hx], ?_, ?_, hbs, hnb, hlen⟩
    · -- invariant of the successor state
      have hba' : ∀ i, i < q.blocks.length → (q.dequeue).2.blockAt i
          = (if i = 0 then b.advanceHead
             else if i < q.blocks.length - 1 then q.blockAt (i + 1) else q.blockAt 0) := by
        intro i hi
        unfold DynamicRingBuffer.blockAt
        rw [hring']
        rcases Nat.eq_zero_or_pos i with hi0 | hipos
        · rw [hi0, if_pos rfl, List.getD_cons_zero]
        · rw [if_neg (by omega)]
          obtain ⟨j, rfl⟩ : ∃ j, i = j + 1 := ⟨i - 1, by omega⟩
          rw [List.getD_cons_succ]
          rcases Nat.lt_or_ge j R3.length with hjlt | hjge
          · rw [if_pos (by omega), getD_append_left hjlt]
            show R3.getD j default = q.ringSeg.getD (j + 1 + 1) default
            rw [hR, List.getD_cons_succ, List.getD_cons_succ]
          · have hje : j = R3.length := by omega
            rw [if_neg (by omega), hje, getD_append_len, ← hb0]
            rfl
      refine ⟨?_, ?_, ?_, ?_, ⟨k, hk, ?_⟩, ?_⟩
      · rw [hlen]; exact h0
      · rw [hfr, hlen]; exact Nat.mod_lt _ h0
      · rw [htl, hlen]; exact ht
      · rw [hnb, hlen]; exact hnum
      · rw [hbs, hbuf]
      · intro i hi
        rw [hlen] at hi
        rw [hbs, htpos, hba' i hi]
        rcases Nat.eq_zero_or_pos i with hi0 | hipos
        · rw [if_pos hi0]
          refine ⟨BlockShape.advanceHead (hb1 ▸ (hblocks 1 h1len).1) (hb1 ▸ hstrict), ?_, ?_⟩
          · intro hgt; omega
          · intro h1 _; omega
        · rw [if_neg (by omega)]
          rcases Nat.lt_or_ge i (q.blocks.length - 1) with hilt | hige
          · rw [if_pos hilt]
            obtain ⟨hsh, hid, hst⟩ := hblocks (i + 1) (by omega)
            exact ⟨hsh, fun hgt => hid (by omega), fun _ h2 => hst (by omega) (by omega)⟩
          · rw [if_neg (by omega)]
            refine ⟨(hblocks 0 h0).1, fun _ => hdr0, fun _ h2 => ?_⟩
            exfalso
            omega
    · -- abstraction of the successor state
      unfold DynamicRingBuffer.absQueue
      rw [hring', List.map_cons, List.flatten_cons, List.map_append, List.flatten_append,
        hxs]
      rw [show List.map Block.pending [a] = [a.pending] from rfl]
      rw [show ([a.pending] : List (List T)).flatten = a.pending from by simp]
      rw [← hb0, hnil0, List.append_nil]
  · -- the consumer block holds data: dequeue reads it in place
    have hlenpos : (q.blockAt 0).pending.length ≠ 0 := by
      intro h
      exact hnil0 (List.eq_nil_of_length_eq_zero h)
    rw [Block.pending_length] at hlenpos
    have hs4 := (hblocks 0 h0).1.2.2.2.1
    have hstrict : (q.blockAt 0).head_ < (q.blockAt 0).tail_ := by omega
    have hempty : (q.blockAt 0).empty = false := by
      refine Bool.eq_false_iff.mpr ?_
      intro heq
      rw [Block.empty_true_iff] at heq
      omega
    obtain ⟨hres, hring, hfr, htl, hlen, htpos, hnb, hbs⟩ :=
      q.dequeue_nonempty_spec hf hempty
    have hpop : (q.blockAt 0).pending
        = (q.blockAt 0).get ((q.blockAt 0).head_ + 1)
          :: ((q.blockAt 0).advanceHead).pending :=
      Block.pending_pop hstrict
    have hx : x = (q.blockAt 0).get ((q.blockAt 0).head_ + 1) := by
      rw [habs, hpop, List.cons_append] at habs'
      exact (List.cons_eq_cons.mp habs').1
    have hxs : xs = ((q.blockAt 0).advanceHead).pending
        ++ ((q.ringSeg.map Block.pending).drop 1).flatten := by
      rw [habs, hpop, List.cons_append] at habs'
      exact (List.cons_eq_cons.mp habs').2
    have hba' : ∀ i, i < q.blocks.length → (q.dequeue).2.blockAt i
        = (if 0 = i then (q.blockAt 0).advanceHead else q.blockAt i) := by
      intro i hi
      unfold DynamicRingBuffer.blockAt
      rw [hring]
      by_cases hi0 : 0 = i
      · rw [if_pos hi0, ← hi0]
        exact getD_set_self hrs0 _ _
      · rw [if_neg hi0]
        exact getD_set_ne hi0 _ _
    refine ⟨by rw [hres, hx], ?_, ?_, hbs, hnb, hlen⟩
    · refine ⟨?_, ?_, ?_, ?_, ⟨k, hk, ?_⟩, ?_⟩
      · rw [hlen]; exact h0
      · rw [hfr, hlen]; exact hf
      · rw [htl, hlen]; exact ht
      · rw [hnb, hlen]; exact hnum
      · rw [hbs, hbuf]
      · intro i hi
        rw [hlen] at hi
        rw [hbs, htpos, hba' i hi]
        by_cases hi0 : 0 = i
        · rw [if_pos hi0]
          refine ⟨BlockShape.advanceHead (hblocks 0 h0).1 hstrict, ?_, ?_⟩
          · intro hgt; omega
          · intro h1 _; omega
        · rw [if_neg hi0]
          exact hblocks i hi
    · unfold DynamicRingBuffer.absQueue
      rw [hring, List.map_set]
      rw [flatten_set_zero (by rw [List.length_map]; exact hrs0)]
      rw [hxs]

/-! ### The freshly constructed queue -/

theorem DynamicRingBuffer.create_blocks (T : Type) [Inhabited T] (bs : Nat) :
    (DynamicRingBuffer.create T bs).blocks = [Block.create T (ceilToPow2 bs)] := rfl

theorem DynamicRingBuffer.create_ringSeg (T : Type) [Inhabited T] (bs : Nat) :
    (DynamicRingBuffer.create T bs).ringSeg = [Block.create T (ceilToPow2 bs)] := by
  unfold DynamicRingBuffer.ringSeg
  rw [DynamicRingBuffer.create_blocks]
  exact List.rotate_zero _

theorem DynamicRingBuffer.create_length (T : Type) [Inhabited T] (bs : Nat) :
    (DynamicRingBuffer.create T bs).blocks.length = 1 := by
  rw [DynamicRingBuffer.create_blocks]
  rfl

theorem DynamicRingBuffer.create_tailPos (T : Type) [Inhabited T] (bs : Nat) :
    (DynamicRingBuffer.create T bs).tailPos = 0 := by
  unfold DynamicRingBuffer.tailPos
  rw [DynamicRingBuffer.create_length, Nat.mod_one]

theorem DynamicRingBuffer.create_Inv (T : Type) [Inhabited T] {bs : Nat}
    (hbs : bs ≤ 2 ^ 64) : (DynamicRingBuffer.create T bs).Inv := by
  have hk : Nat.clog 2 bs ≤ 64 := (Nat.le_pow_iff_clog_le (by omega)).mp hbs
  refine ⟨by rw [DynamicRingBuffer.create_length]; omega,
    by rw [DynamicRingBuffer.create_length]; show 0 < 1; omega,
    by rw [DynamicRingBuffer.create_length]; show 0 < 1; omega,
    by rw [DynamicRingBuffer.create_length]; rfl,
    ⟨Nat.clog 2 bs, hk,
      by rw [show (DynamicRingBuffer.create T bs).buffer_size_ = ceilToPow2 bs from rfl,
        ceilToPow2_eq]⟩, ?_⟩
  intro i hi
  have hi0 : i = 0 := by
    have := DynamicRingBuffer.create_length T bs
    omega
  subst hi0
  have hb : (DynamicRingBuffer.create T bs).blockAt 0 = Block.create T (ceilToPow2 bs) := by
    unfold DynamicRingBuffer.blockAt
    rw [DynamicRingBuffer.create_ringSeg]
    exact List.getD_cons_zero
  rw [hb, DynamicRingBuffer.create_tailPos]
  exact ⟨BlockShape.create T (ceilToPow2 bs), fun hgt => absurd hgt (by omega),
    fun h1 h2 => absurd (Nat.le_trans h1 h2) (by omega)⟩

theorem DynamicRingBuffer.create_absQueue (T : Type) [Inhabited T] (bs : Nat) :
    (DynamicRingBuffer.create T bs).absQueue = [] := by
  unfold DynamicRingBuffer.absQueue
  rw [DynamicRingBuffer.create_ringSeg, List.map_cons, List.map_nil, List.flatten_cons,
    Block.pending_of_drained (by rfl), List.flatten_nil, List.nil_append]

/-! ### The refinement: every run of the ring buffer behaves as the plain FIFO -/

theorem DynamicRingBuffer.runOps_refines [Inhabited T] {q : DynamicRingBuffer T}
    (hInv : q.Inv) (ops : List (Op T)) :
    (q.runOps ops).1.Inv ∧
    (q.runOps ops).1.absQueue = (fifoRun q.absQueue ops).1 ∧
    (q.runOps ops).2 = (fifoRun q.absQueue ops).2 ∧
    (q.runOps ops).1.buffer_size_ = q.buffer_size_ := by
  induction ops generalizing q with
  | nil => exact ⟨hInv, rfl, rfl, rfl⟩
  | cons op ops ih =>
    cases op with
    | enq e =>
      obtain ⟨hInv', habs', hbs', _⟩ := q.enqueue_step e hInv
      obtain ⟨ih1, ih2, ih3, ih4⟩ := ih hInv'
      simp only [DynamicRingBuffer.runOps, fifoRun]
      rw [← habs']
      exact ⟨ih1, ih2, ih3, by rw [ih4, hbs']⟩
    | deq =>
      rcases habs : q.absQueue with _ | ⟨x, xs⟩
      · have hdq := q.dequeue_nil hInv habs
        obtain ⟨ih1, ih2, ih3, ih4⟩ := ih hInv
        simp only [DynamicRingBuffer.runOps, fifoRun, habs, hdq]
        rw [← habs]
        exact ⟨ih1, ih2, by rw [ih3], ih4⟩
      · obtain ⟨hres, hInv', habs', hbs', _, _⟩ := q.dequeue_cons hInv habs
        obtain ⟨ih1, ih2, ih3, ih4⟩ := ih hInv'
        simp only [DynamicRingBuffer.runOps, fifoRun, habs]
        rw [← habs']
        exact ⟨ih1, ih2, by rw [ih3, hres], by rw [ih4, hbs']⟩

/-! ### Run algebra and model-level facts -/

theorem DynamicRingBuffer.runOps_append [Inhabited T] (q : DynamicRingBuffer T)
    (l1 l2 : List (Op T)) :
    q.runOps (l1 ++ l2)
      = (((q.runOps l1).1.runOps l2).1, (q.runOps l1).2 ++ ((q.runOps l1).1.runOps l2).2) := by
  induction l1 generalizing q with
  | nil => simp [DynamicRingBuffer.runOps]
  | cons op l1 ih =>
    cases op with
    | enq e =>
      simp only [List.cons_append, DynamicRingBuffer.runOps, List.append_eq]
      rw [ih]
    | deq =>
      simp only [List.cons_append, DynamicRingBuffer.runOps, List.append_eq]
      rw [ih]

theorem fifoRun_enqs (m : List T) (es : List T) :
    fifoRun m (es.map Op.enq) = (m ++ es, []) := by
  induction es generalizing m with
  | nil => simp [fifoRun]
  | cons e es ih =>
    simp only [List.map_cons, fifoRun]
    rw [ih]
    simp

theorem fifoRun_deqs (m : List T) (n : Nat) (hn : n ≤ m.length) :
    fifoRun m (List.replicate n Op.deq) = (m.drop n, (m.take n).map some) := by
  induction n generalizing m with
  | zero => simp [fifoRun]
  | succ n ih =>
    rcases m with _ | ⟨x, xs⟩
    · simp at hn
    · simp only [List.replicate_succ, fifoRun]
      rw [ih xs (by simpa using Nat.le_of_succ_le_succ hn)]
      simp

/-! ### Occupancy accounting -/

theorem sum_map_mod (l : List Nat) (M : Nat) :
    (l.map (fun a => a % M)).sum % M = l.sum % M := by
  induction l with
  | nil => rfl
  | cons a l ih =>
    rw [List.map_cons, List.sum_cons, List.sum_cons]
    rw [Nat.add_mod (a % M), ih, Nat.mod_mod_of_dvd a (dvd_refl M), ← Nat.add_mod]

theorem DynamicRingBuffer.shape_of_mem [Inhabited T] {q : DynamicRingBuffer T}
    (hInv : q.Inv) {b : Block T} (hb : b ∈ q.blocks) : BlockShape q.buffer_size_ b := by
  have hmem : b ∈ q.ringSeg := List.mem_rotate.mpr hb
  obtain ⟨i, hi, hbi⟩ := List.mem_iff_getElem.mp hmem
  have hilen : i < q.blocks.length := by
    rw [← DynamicRingBuffer.length_ringSeg]
    exact hi
  have hsh := (hInv.2.2.2.2.2 i hilen).1
  have hba : q.blockAt i = b := by
    unfold DynamicRingBuffer.blockAt
    rw [List.getD_eq_getElem _ _ hi, hbi]
  rwa [hba] at hsh

theorem DynamicRingBuffer.occInt_eq_length [Inhabited T] {q : DynamicRingBuffer T}
    (hInv : q.Inv) : q.occInt = (q.absQueue.length : Int) := by
  unfold DynamicRingBuffer.occInt DynamicRingBuffer.absQueue
  have hperm : List.Perm (q.ringSeg.map (fun b => b.tail_ - b.head_))
      (q.blocks.map (fun b => b.tail_ - b.head_)) :=
    (List.rotate_perm q.blocks q.front_block_).map _
  rw [← hperm.sum_eq, List.length_flatten, List.map_map, Nat.cast_list_sum, List.map_map]
  refine congrArg List.sum ?_
  refine List.map_congr_left ?_
  intro b hbmem
  have hsh := q.shape_of_mem hInv (List.mem_rotate.mp hbmem)
  obtain ⟨_, _, _, hs4, _⟩ := hsh
  show b.tail_ - b.head_ = ((b.pending.length : Nat) : Int)
  rw [Block.pending_length]
  omega

theorem DynamicRingBuffer.occupied_approx_eq [Inhabited T] {q : DynamicRingBuffer T}
    (hInv : q.Inv) : q.occupied_approx = q.occInt.toNat % 2 ^ 64 := by
  unfold DynamicRingBuffer.occupied_approx
  have h1 : q.blocks.map (fun b => ((b.tail_ - b.head_).emod (2 ^ 64)).toNat)
      = q.blocks.map (fun b => (b.tail_ - b.head_).toNat % 2 ^ 64) := by
    refine List.map_congr_left ?_
    intro b hbmem
    obtain ⟨_, _, _, hs4, _⟩ := q.shape_of_mem hInv hbmem
    show ((b.tail_ - b.head_) % (2 ^ 64 : Int)).toNat = (b.tail_ - b.head_).toNat % 2 ^ 64
    omega
  have h2 : ((((q.blocks.map (fun b => (b.tail_ - b.head_).toNat)).sum : Nat) : Int))
      = q.occInt := by
    unfold DynamicRingBuffer.occInt
    rw [Nat.cast_list_sum, List.map_map]
    refine congrArg List.sum ?_
    refine List.map_congr_left ?_
    intro b hbmem
    obtain ⟨_, _, _, hs4, _⟩ := q.shape_of_mem hInv hbmem
    show (((b.tail_ - b.head_).toNat : Nat) : Int) = b.tail_ - b.head_
    omega
  rw [h1]
  have h3 : q.blocks.map (fun b => (b.tail_ - b.head_).toNat % 2 ^ 64)
      = (q.blocks.map (fun b => (b.tail_ - b.head_).toNat)).map (fun a => a % 2 ^ 64) := by
    rw [List.map_map]
    rfl
  rw [h3, sum_map_mod]
  omega

/-! ### Growth happens exactly at a full single block -/

theorem DynamicRingBuffer.single_block [Inhabited T] {q : DynamicRingBuffer T}
    (hInv : q.Inv) (hone : q.blocks.length = 1) :
    q.tailPos = 0 ∧
    q.occInt = (q.blockAt 0).tail_ - (q.blockAt 0).head_ := by
  obtain ⟨h0, hf, ht, hnum, _, hblocks⟩ := hInv
  have htp : q.tailPos < q.blocks.length := DynamicRingBuffer.tailPos_lt h0
  obtain ⟨b, hb⟩ := List.length_eq_one.mp hone
  have hf0 : q.front_block_ = 0 := by omega
  have hba : q.blockAt 0 = b := by
    unfold DynamicRingBuffer.blockAt DynamicRingBuffer.ringSeg
    rw [hf0, List.rotate_zero, hb, List.getD_cons_zero]
  refine ⟨by omega, ?_⟩
  unfold DynamicRingBuffer.occInt
  rw [hb, hba, List.map_cons, List.map_nil, List.sum_cons, List.sum_nil, add_zero]

theorem DynamicRingBuffer.enqueue_num_one [Inhabited T] {q : DynamicRingBuffer T} (e : T)
    (hInv : q.Inv) (hone : q.blocks.length = 1)
    (hroom : q.absQueue.length < q.buffer_size_) :
    (q.enqueue e).num_blocks_ = q.num_blocks_ ∧ (q.enqueue e).blocks.length = 1 := by
  obtain ⟨htp0, hocc⟩ := q.single_block hInv hone
  have hlen := q.occInt_eq_length hInv
  obtain ⟨h0, hf, ht, hnum, ⟨k, hk, hbuf⟩, hblocks⟩ := hInv
  obtain ⟨hs1, _, _, hs4, _⟩ := (hblocks 0 h0).1
  have hcap : (q.blockAt q.tailPos).hasAvailableCapacity = true := by
    rw [htp0]
    refine (Block.hasAvailableCapacity_true_iff _).mpr ?_
    rw [hs1]
    omega
  obtain ⟨_, _, _, hl, _, hnb, _⟩ :=
    q.enqueue_avail_spec e hf ht hcap
  exact ⟨hnb, by omega⟩

theorem DynamicRingBuffer.enqueue_grow_one [Inhabited T] {q : DynamicRingBuffer T} (e : T)
    (hInv : q.Inv) (hone : q.blocks.length = 1)
    (hfull : q.absQueue.length = q.buffer_size_) :
    (q.enqueue e).num_blocks_ = q.num_blocks_ + 1 := by
  obtain ⟨htp0, hocc⟩ := q.single_block hInv hone
  have hlen := q.occInt_eq_length hInv
  obtain ⟨h0, hf, ht, hnum, ⟨k, hk, hbuf⟩, hblocks⟩ := hInv
  obtain ⟨hs1, _, _, hs4, _⟩ := (hblocks 0 h0).1
  have hcap : (q.blockAt q.tailPos).hasAvailableCapacity = false := by
    rw [htp0]
    refine Bool.eq_false_iff.mpr ?_
    intro hc
    rw [Block.hasAvailableCapacity_true_iff, hs1] at hc
    omega
  have hlast : q.tailPos + 1 = q.blocks.length := by omega
  obtain ⟨_, _, _, _, _, hnb, _⟩ := q.enqueue_grow_spec e hf ht hcap hlast
  exact hnb

theorem DynamicRingBuffer.dequeue_preserves_num [Inhabited T] (q : DynamicRingBuffer T) :
    (q.dequeue).2.num_blocks_ = q.num_blocks_ := by
  unfold DynamicRingBuffer.dequeue
  dsimp only
  split_ifs <;> rfl

theorem DynamicRingBuffer.runOps_deqs_num [Inhabited T] (q : DynamicRingBuffer T) (n : Nat) :
    (q.runOps (List.replicate n Op.deq)).1.num_blocks_ = q.num_blocks_ := by
  induction n generalizing q with
  | zero => rfl
  | succ n ih =>
    rw [List.replicate_succ]
    show ((q.dequeue).2.runOps (List.replicate n Op.deq)).1.num_blocks_ = q.num_blocks_
    rw [ih, q.dequeue_preserves_num]

theorem DynamicRingBuffer.runOps_enqs_one [Inhabited T] {q : DynamicRingBuffer T}
    (hInv : q.Inv) (hone : q.blocks.length = 1) (es : List T)
    (hroom : q.absQueue.length + es.length ≤ q.buffer_size_) :
    (q.runOps (es.map Op.enq)).1.num_blocks_ = q.num_blocks_ ∧
    (q.runOps (es.map Op.enq)).1.blocks.length = 1 := by
  induction es generalizing q with
  | nil => exact ⟨rfl, hone⟩
  | cons e es ih =>
    have hroom1 : q.absQueue.length < q.buffer_size_ := by
      rw [List.length_cons] at hroom
      omega
    obtain ⟨hn1, hl1⟩ := q.enqueue_num_one e hInv hone hroom1
    obtain ⟨hInv', habs', hbs', _⟩ := q.enqueue_step e hInv
    have hroom' : (q.enqueue e).absQueue.length + es.length ≤ (q.enqueue e).buffer_size_ := by
      rw [habs', List.length_append, hbs']
      rw [List.length_cons] at hroom
      simp only [List.length_cons, List.length_nil]
      omega
    obtain ⟨ih1, ih2⟩ := ih hInv' hl1 hroom'
    constructor
    · show ((q.enqueue e).runOps (es.map Op.enq)).1.num_blocks_ = q.num_blocks_
      rw [ih1, hn1]
    · show ((q.enqueue e).runOps (es.map Op.enq)).1.blocks.length = 1
      exact ih2

/-! ### Counting enqueues and successful dequeues in the model -/

theorem fifoRun_length_eq (m : List T) (ops : List (Op T)) :
    (((fifoRun m ops).1.length : Nat) : Int)
      = (m.length : Int) + (countEnq ops : Int) - (countSome (fifoRun m ops).2 : Int) := by
  induction ops generalizing m with
  | nil =>
    simp [fifoRun, countEnq, countSome]
  | cons op ops ih =>
    cases op with
    | enq e =>
      have hc : countEnq (Op.enq e :: ops) = countEnq ops + 1 := by
        unfold countEnq
        rw [List.countP_cons]
        rfl
      simp only [fifoRun]
      rw [ih, hc]
      have : ((m ++ [e]).length : Int) = (m.length : Int) + 1 := by
        simp
      rw [this]
      push_cast
      ring
    | deq =>
      rcases m with _ | ⟨x, xs⟩
      · have hc : countEnq (Op.deq :: ops) = countEnq ops := by
          unfold countEnq
          rw [List.countP_cons]
          rfl
        simp only [fifoRun]
        have hs : countSome (none :: (fifoRun ([] : List T) ops).2)
            = countSome (fifoRun ([] : List T) ops).2 := by
          unfold countSome
          rw [List.countP_cons]
          rfl
        rw [hc, hs, ih]
      · have hc : countEnq (Op.deq :: ops) = countEnq ops := by
          unfold countEnq
          rw [List.countP_cons]
          rfl
        simp only [fifoRun]
        have hs : countSome (some x :: (fifoRun xs ops).2)
            = countSome (fifoRun xs ops).2 + 1 := by
          unfold countSome
          rw [List.countP_cons]
          rfl
        rw [hc, hs, ih]
        push_cast
        have : ((x :: xs).length : Int) = (xs.length : Int) + 1 := by
          simp
        rw [this]
        ring

/-! ### Helpers for the frame theorem -/

theorem map_set_self_at {l : List α} {i : Nat} (f : α → β) (h : i < l.length) (d : α) :
    (l.map f).set i (f (l.getD i d)) = l.map f := by
  apply List.ext_getElem (by simp)
  intro n h1 h2
  rw [List.getElem_set]
  by_cases hin : i = n
  · subst hin
    rw [if_pos rfl, List.getElem_map, List.getD_eq_getElem _ _ h]
  · rw [if_neg hin]

theorem getD_map_at {l : List α} {i : Nat} (f : α → β) (h : i < l.length) (d : α) (d' : β) :
    (l.map f).getD i d' = f (l.getD i d) := by
  have h' : i < (l.map f).length := by simpa using h
  rw [List.getD_eq_getElem _ _ h', List.getD_eq_getElem _ _ h, List.getElem_map]

theorem set_append_len {l1 : List α} (a b : α) : (l1 ++ [a]).set l1.length b = l1 ++ [b] := by
  induction l1 with
  | nil => rfl
  | cons c l ih =>
    simp only [List.cons_append, List.length_cons, List.set_cons_succ]
    rw [ih]

/-- Every enqueue on an invariant-satisfying state is frame-respecting: the
consumer sees the same front pointer and the same head counters; exactly one
tail counter advances by one. -/
theorem DynamicRingBuffer.enqueue_frame_of_inv [Inhabited T] {q : DynamicRingBuffer T}
    (e : T) (hInv : q.Inv) : enqueueFrame q (q.enqueue e) := by
  obtain ⟨h0, hf, ht, hnum, ⟨k, hk, hbuf⟩, hblocks⟩ := hInv
  have htp : q.tailPos < q.blocks.length := DynamicRingBuffer.tailPos_lt h0
  have hrslen : q.ringSeg.length = q.blocks.length := q.length_ringSeg
  by_cases hcap : (q.blockAt q.tailPos).hasAvailableCapacity = true
  · obtain ⟨hring, hfr, htl, hlen, htpos, hnb, hbs⟩ := q.enqueue_avail_spec e hf ht hcap
    refine ⟨false, by simp [hnb], by simp [hfr], ?_, ⟨q.tailPos, ?_, ?_⟩⟩
    · rw [hring, List.map_set]
      simp only [Bool.false_eq_true, if_false, List.append_nil]
      have hh : ((q.blockAt q.tailPos).push e).head_
          = (q.blockAt q.tailPos).head_ := rfl
      rw [hh]
      exact map_set_self_at Block.head_ (by rw [hrslen]; exact htp) default
    · rw [(q.enqueue e).length_ringSeg, hlen]
      exact htp
    · rw [hring, List.map_set]
      simp only [Bool.false_eq_true, if_false, List.append_nil]
      rw [getD_map_at Block.tail_ (by rw [hrslen]; exact htp) default 0]
      rfl
  · have hcap' : (q.blockAt q.tailPos).hasAvailableCapacity = false :=
      Bool.eq_false_iff.mpr hcap
    rcases Nat.lt_or_ge (q.tailPos + 1) q.blocks.length with hlt | hge
    · obtain ⟨hring, hfr, htl, hlen, htpos, hnb, hbs⟩ := q.enqueue_reuse_spec e hf ht hcap' hlt
      refine ⟨false, by simp [hnb], by simp [hfr], ?_, ⟨q.tailPos + 1, ?_, ?_⟩⟩
      · rw [hring, List.map_set]
        simp only [Bool.false_eq_true, if_false, List.append_nil]
        have hh : ((q.blockAt (q.tailPos + 1)).push e).head_
            = (q.blockAt (q.tailPos + 1)).head_ := rfl
        rw [hh]
        exact map_set_self_at Block.head_ (by rw [hrslen]; exact hlt) default
      · rw [(q.enqueue e).length_ringSeg, hlen]
        exact hlt
      · rw [hring, List.map_set]
        simp only [Bool.false_eq_true, if_false, List.append_nil]
        rw [getD_map_at Block.tail_ (by rw [hrslen]; exact hlt) default 0]
        rfl
    · have hlast : q.tailPos + 1 = q.blocks.length := by omega
      obtain ⟨hring, hfr, htl, hlen, htpos, hnb, hbs⟩ := q.enqueue_grow_spec e hf ht hcap' hlast
      refine ⟨true, by simp [hnb], by simp [hfr], ?_, ⟨q.blocks.length, ?_, ?_⟩⟩
      · rw [hring, List.map_append]
        simp only [if_true]
        rfl
      · rw [(q.enqueue e).length_ringSeg, hlen]
        omega
      · rw [hring, List.map_append]
        simp only [if_true]
        have hgd : (q.ringSeg.map Block.tail_ ++ [INITIAL_CURSOR_VALUE]).getD
            q.blocks.length 0 = INITIAL_CURSOR_VALUE := by
          have h1 : (q.ringSeg.map Block.tail_).length = q.blocks.length := by
            rw [List.length_map, hrslen]
          rw [← h1]
          exact getD_append_len _ _
        rw [hgd]
        have h1 : (q.ringSeg.map Block.tail_).length = q.blocks.length := by
          rw [List.length_map, hrslen]
        rw [← h1, set_append_len]
        rfl

/-! ### Reachable states -/

theorem DynamicRingBuffer.reachable_facts [Inhabited T] {bs : Nat} (hbs : bs ≤ 2 ^ 64)
    (ops : List (Op T)) :
    ((DynamicRingBuffer.create T bs).runOps ops).1.Inv ∧
    ((DynamicRingBuffer.create T bs).runOps ops).1.absQueue = (fifoRun [] ops).1 ∧
    ((DynamicRingBuffer.create T bs).runOps ops).2 = (fifoRun [] ops).2 ∧
    ((DynamicRingBuffer.create T bs).runOps ops).1.buffer_size_ = ceilToPow2 bs := by
  obtain ⟨a, b, c, d⟩ :=
    DynamicRingBuffer.runOps_refines (DynamicRingBuffer.create_Inv T hbs) ops
  rw [DynamicRingBuffer.create_absQueue] at b c
  exact ⟨a, b, c, by rw [d]; rfl⟩

/-! ### The claims -/

/-- C1: for every sequence of enqueues interleaved arbitrarily (sequentially)
with dequeues on a single DynamicRingBuffer, the sequence of dequeue results
coincides with that of a plain FIFO queue run over the same operations:
each successful dequeue returns the events in exactly the order they were
enqueued, regardless of how many blocks were reused or spliced in. -/
theorem claim_C1_fifo_order {T : Type} [Inhabited T] (ops : List (Op T)) (bs : Nat)
    (hbs : bs ≤ 2 ^ 64) :
    ((DynamicRingBuffer.create T bs).runOps ops).2 = (fifoRun ([] : List T) ops).2 :=
  (DynamicRingBuffer.reachable_facts hbs ops).2.2.1

/-- Witness for C1: a concrete interleaved run (forcing block growth and
reuse at block size 2) returns exactly the FIFO outputs. -/
theorem claim_C1_fifo_order_witness :
    ((DynamicRingBuffer.create Nat 2).runOps
        [Op.enq 1, Op.enq 2, Op.enq 3, Op.deq, Op.enq 4, Op.enq 5, Op.deq, Op.deq,
          Op.deq, Op.deq, Op.deq]).2
      = (fifoRun ([] : List Nat)
        [Op.enq 1, Op.enq 2, Op.enq 3, Op.deq, Op.enq 4, Op.enq 5, Op.deq, Op.deq,
          Op.deq, Op.deq, Op.deq]).2 :=
  claim_C1_fifo_order _ 2 (by norm_num)

/-- C2: after every sequential run, the exact occupancy (tail_ - head_ summed
over all blocks of the ring, in unbounded integers) equals the number of
completed enqueues minus the number of successful dequeues; the size_t walk
occupied_approx returns exactly that value reduced modulo 2^64. -/
theorem claim_C2_occupancy {T : Type} [Inhabited T] (ops : List (Op T)) (bs : Nat)
    (hbs : bs ≤ 2 ^ 64) :
    ((DynamicRingBuffer.create T bs).runOps ops).1.occInt
      = (countEnq ops : Int) - (countSome ((DynamicRingBuffer.create T bs).runOps ops).2 : Int) ∧
    ((DynamicRingBuffer.create T bs).runOps ops).1.occupied_approx
      = ((DynamicRingBuffer.create T bs).runOps ops).1.occInt.toNat % 2 ^ 64 := by
  obtain ⟨hInv, habs, hout, _⟩ := DynamicRingBuffer.reachable_facts hbs ops
  refine ⟨?_, DynamicRingBuffer.occupied_approx_eq hInv⟩
  rw [DynamicRingBuffer.occInt_eq_length hInv, habs, hout]
  have h := fifoRun_length_eq ([] : List T) ops
  simpa using h

/-- Witness for C2 at a concrete mixed run with growth, a failed dequeue and
several successful ones. -/
theorem claim_C2_occupancy_witness :
    ((DynamicRingBuffer.create Nat 2).runOps
        [Op.enq 1, Op.enq 2, Op.enq 3, Op.deq, Op.deq, Op.deq, Op.deq, Op.enq 4]).1.occInt
      = (countEnq [Op.enq 1, Op.enq 2, Op.enq 3, Op.deq, Op.deq, Op.deq, Op.deq,
          Op.enq (4 : Nat)] : Int)
        - (countSome (((DynamicRingBuffer.create Nat 2).runOps
            [Op.enq 1, Op.enq 2, Op.enq 3, Op.deq, Op.deq, Op.deq, Op.deq, Op.enq 4]).2) : Int) ∧
    ((DynamicRingBuffer.create Nat 2).runOps
        [Op.enq 1, Op.enq 2, Op.enq 3, Op.deq, Op.deq, Op.deq, Op.deq, Op.enq 4]).1.occupied_approx
      = ((DynamicRingBuffer.create Nat 2).runOps
          [Op.enq 1, Op.enq 2, Op.enq 3, Op.deq, Op.deq, Op.deq, Op.deq,
            Op.enq 4]).1.occInt.toNat % 2 ^ 64 :=
  claim_C2_occupancy _ 2 (by norm_num)

/-- C5: in every reachable state of a sequential run, every block of the ring
satisfies 0 <= tail_ - head_ <= size_: the consumer position never passes the
producer position, and no block ever holds more than its capacity. -/
theorem claim_C5_block_bounds {T : Type} [Inhabited T] (ops : List (Op T)) (bs : Nat)
    (hbs : bs ≤ 2 ^ 64) :
    ∀ b ∈ ((DynamicRingBuffer.create T bs).runOps ops).1.blocks,
      0 ≤ b.tail_ - b.head_ ∧ b.tail_ - b.head_ ≤ (b.size_ : Int) := by
  intro b hb
  obtain ⟨hInv, _, _, _⟩ := DynamicRingBuffer.reachable_facts hbs ops
  obtain ⟨hs1, _, _, hs4, hs5⟩ := DynamicRingBuffer.shape_of_mem hInv hb
  constructor
  · omega
  · omega

/-- Witness for C5: the first block of a concrete three-block state
satisfies the occupancy bounds. -/
theorem claim_C5_block_bounds_witness :
    0 ≤ (((DynamicRingBuffer.create Nat 1).runOps
        [Op.enq 7, Op.enq 8, Op.enq 9, Op.deq]).1.blocks.getD 0 default).tail_
      - (((DynamicRingBuffer.create Nat 1).runOps
        [Op.enq 7, Op.enq 8, Op.enq 9, Op.deq]).1.blocks.getD 0 default).head_ ∧
    (((DynamicRingBuffer.create Nat 1).runOps
        [Op.enq 7, Op.enq 8, Op.enq 9, Op.deq]).1.blocks.getD 0 default).tail_
      - (((DynamicRingBuffer.create Nat 1).runOps
        [Op.enq 7, Op.enq 8, Op.enq 9, Op.deq]).1.blocks.getD 0 default).head_
      ≤ ((((DynamicRingBuffer.create Nat 1).runOps
        [Op.enq 7, Op.enq 8, Op.enq 9, Op.deq]).1.blocks.getD 0 default).size_ : Int) :=
  claim_C5_block_bounds [Op.enq 7, Op.enq 8, Op.enq 9, Op.deq] 1 (by norm_num) _ (by decide)

/-- C6: in every reachable state of a sequential run the two defensive
assertions of the source hold.  Whenever enqueue would switch into the reused
block ahead of a full producer block (the block ahead is not the consumer
block), that block is empty (tail_ == head_, the enqueue-side assert); and
whenever dequeue finds the consumer block drained but distinct from the
producer block, the block ahead of it is non-empty (head_ != tail_, the
dequeue-side assert). -/
theorem claim_C6_asserts {T : Type} [Inhabited T] (ops : List (Op T)) (bs : Nat)
    (hbs : bs ≤ 2 ^ 64) (q : DynamicRingBuffer T)
    (hq : q = ((DynamicRingBuffer.create T bs).runOps ops).1) :
    ((q.blocks.getD q.tail_block_ default).hasAvailableCapacity = false →
      (q.tail_block_ + 1) % q.blocks.length ≠ q.front_block_ →
      (q.blocks.getD ((q.tail_block_ + 1) % q.blocks.length) default).tail_
        = (q.blocks.getD ((q.tail_block_ + 1) % q.blocks.length) default).head_) ∧
    ((q.blocks.getD q.front_block_ default).empty = true →
      q.front_block_ ≠ q.tail_block_ →
      (q.blocks.getD ((q.front_block_ + 1) % q.blocks.length) default).head_
        ≠ (q.blocks.getD ((q.front_block_ + 1) % q.blocks.length) default).tail_) := by
  subst hq
  obtain ⟨hInv, _, _, _⟩ := DynamicRingBuffer.reachable_facts hbs ops
  set q := ((DynamicRingBuffer.create T bs).runOps ops).1
  obtain ⟨h0, hf, ht, hnum, _, hblocks⟩ := hInv
  have htp : q.tailPos < q.blocks.length := DynamicRingBuffer.tailPos_lt h0
  constructor
  · intro _ hne
    have hlt : q.tailPos + 1 < q.blocks.length := by
      rcases Nat.lt_or_ge (q.tailPos + 1) q.blocks.length with h | h
      · exact h
      · exact absurd ((q.nextIdx_eq_front_iff hf ht).mpr (by omega)) hne
    rw [DynamicRingBuffer.getD_nextIdx hf ht hlt]
    exact (hblocks (q.tailPos + 1) hlt).2.1 (by omega)
  · intro _ hne2
    have hnz : q.tailPos ≠ 0 := fun h => hne2 ((q.tailPos_eq_zero_iff hf ht).mp h)
    have h1len : 1 < q.blocks.length := by omega
    have hgd : q.blocks.getD ((q.front_block_ + 1) % q.blocks.length) default
        = q.blockAt 1 := by
      rw [q.blockAt_eq h1len, Nat.add_comm]
    rw [hgd]
    have := (hblocks 1 h1len).2.2 (le_refl 1) (by omega)
    omega

/-- Witness for C6: at a concrete reachable state (block size 1, three
blocks, consumer sitting on a drained block behind a full producer block)
both assert contexts actually arise, and both assertions hold there. -/
theorem claim_C6_asserts_witness :
    (((((DynamicRingBuffer.create Nat 1).runOps
      [Op.enq 7, Op.enq 8, Op.enq 9, Op.deq, Op.deq]).1).blocks.getD
        (((((DynamicRingBuffer.create Nat 1).runOps
      [Op.enq 7, Op.enq 8, Op.enq 9, Op.deq, Op.deq]).1).tail_block_ + 1) % (((DynamicRingBuffer.create Nat 1).runOps
      [Op.enq 7, Op.enq 8, Op.enq 9, Op.deq, Op.deq]).1).blocks.length) default).tail_
      = ((((DynamicRingBuffer.create Nat 1).runOps
      [Op.enq 7, Op.enq 8, Op.enq 9, Op.deq, Op.deq]).1).blocks.getD
        (((((DynamicRingBuffer.create Nat 1).runOps
      [Op.enq 7, Op.enq 8, Op.enq 9, Op.deq, Op.deq]).1).tail_block_ + 1) % (((DynamicRingBuffer.create Nat 1).runOps
      [Op.enq 7, Op.enq 8, Op.enq 9, Op.deq, Op.deq]).1).blocks.length) default).head_) ∧
    (((((DynamicRingBuffer.create Nat 1).runOps
      [Op.enq 7, Op.enq 8, Op.enq 9, Op.deq, Op.deq]).1).blocks.getD
        (((((DynamicRingBuffer.create Nat 1).runOps
      [Op.enq 7, Op.enq 8, Op.enq 9, Op.deq, Op.deq]).1).front_block_ + 1) % (((DynamicRingBuffer.create Nat 1).runOps
      [Op.enq 7, Op.enq 8, Op.enq 9, Op.deq, Op.deq]).1).blocks.length) default).head_
      ≠ ((((DynamicRingBuffer.create Nat 1).runOps
      [Op.enq 7, Op.enq 8, Op.enq 9, Op.deq, Op.deq]).1).blocks.getD
        (((((DynamicRingBuffer.create Nat 1).runOps
      [Op.enq 7, Op.enq 8, Op.enq 9, Op.deq, Op.deq]).1).front_block_ + 1) % (((DynamicRingBuffer.create Nat 1).runOps
      [Op.enq 7, Op.enq 8, Op.enq 9, Op.deq, Op.deq]).1).blocks.length) default).tail_) :=
  ⟨(claim_C6_asserts [Op.enq 7, Op.enq 8, Op.enq 9, Op.deq, Op.deq] 1 (by norm_num)
      _ rfl).1 (by decide) (by decide),
    (claim_C6_asserts [Op.enq 7, Op.enq 8, Op.enq 9, Op.deq, Op.deq] 1 (by norm_num)
      _ rfl).2 (by decide) (by decide)⟩

/-- C7: dequeue on a freshly constructed DynamicRingBuffer on which enqueue
was never called returns false (modelled as none, meaning the caller-supplied
output parameter is not written) and leaves the queue unchanged. -/
theorem claim_C7_fresh_dequeue (T : Type) [Inhabited T] (bs : Nat) :
    (DynamicRingBuffer.create T bs).dequeue = (none, DynamicRingBuffer.create T bs) := by
  refine DynamicRingBuffer.dequeue_fail_spec ?_ ?_ ?_ ?_
  · rw [DynamicRingBuffer.create_length]
    show 0 < 1
    omega
  · rw [DynamicRingBuffer.create_length]
    show 0 < 1
    omega
  · have hb : (DynamicRingBuffer.create T bs).blockAt 0
        = Block.create T (ceilToPow2 bs) := by
      unfold DynamicRingBuffer.blockAt
      rw [DynamicRingBuffer.create_ringSeg]
      exact List.getD_cons_zero
    rw [hb]
    rfl
  · exact DynamicRingBuffer.create_tailPos T bs

/-- C3: enqueuing buffer_size + 1 events into a fresh queue with power-of-two
block size makes num_blocks() return 2 — the (buffer_size+1)-th enqueue
allocates the second block — and draining afterwards returns every event, in
particular the (buffer_size+1)-th dequeue succeeds with the
(buffer_size+1)-th enqueued event. -/
theorem claim_C3_growth {T : Type} [Inhabited T] (k : Nat) (hk : k ≤ 64) (es : List T)
    (hlen : es.length = 2 ^ k + 1) :
    ((DynamicRingBuffer.create T (2 ^ k)).runOps (es.map Op.enq)).1.num_blocks = 2 ∧
    ((DynamicRingBuffer.create T (2 ^ k)).runOps
        (es.map Op.enq ++ List.replicate (2 ^ k + 1) Op.deq)).2 = es.map some := by
  have hceil : ceilToPow2 (2 ^ k) = 2 ^ k := by
    rw [ceilToPow2_eq, Nat.clog_pow 2 k (by omega)]
  have hbs : (2 : Nat) ^ k ≤ 2 ^ 64 := Nat.pow_le_pow_right (by omega) hk
  have hbuf : (DynamicRingBuffer.create T (2 ^ k)).buffer_size_ = 2 ^ k := hceil
  constructor
  · have hsplit : es.map Op.enq
        = (es.take (2 ^ k)).map Op.enq ++ (es.drop (2 ^ k)).map Op.enq := by
      rw [← List.map_append, List.take_append_drop]
    obtain ⟨r1Inv, r1abs, _, r1buf⟩ :=
      DynamicRingBuffer.reachable_facts hbs ((es.take (2 ^ k)).map Op.enq)
    have htake : (es.take (2 ^ k)).length = 2 ^ k := by
      rw [List.length_take]
      omega
    obtain ⟨hn1, hl1⟩ := DynamicRingBuffer.runOps_enqs_one
      (DynamicRingBuffer.create_Inv T hbs)
      (DynamicRingBuffer.create_length T (2 ^ k)) (es.take (2 ^ k))
      (by rw [DynamicRingBuffer.create_absQueue, hbuf, htake]; simp)
    have habs1 : ((DynamicRingBuffer.create T (2 ^ k)).runOps
        ((es.take (2 ^ k)).map Op.enq)).1.absQueue = es.take (2 ^ k) := by
      rw [r1abs, fifoRun_enqs]
      exact List.nil_append _
    have hfull : ((DynamicRingBuffer.create T (2 ^ k)).runOps
          ((es.take (2 ^ k)).map Op.enq)).1.absQueue.length
        = ((DynamicRingBuffer.create T (2 ^ k)).runOps
          ((es.take (2 ^ k)).map Op.enq)).1.buffer_size_ := by
      rw [habs1, htake, r1buf, hceil]
    obtain ⟨eB, heB⟩ := List.length_eq_one.mp
      (show (es.drop (2 ^ k)).length = 1 by rw [List.length_drop, hlen]; omega)
    have hgrow := DynamicRingBuffer.enqueue_grow_one eB r1Inv hl1 hfull
    rw [hsplit, DynamicRingBuffer.runOps_append, heB]
    show (((DynamicRingBuffer.create T (2 ^ k)).runOps
        ((es.take (2 ^ k)).map Op.enq)).1.runOps ([eB].map Op.enq)).1.num_blocks_ = 2
    simp only [List.map_cons, List.map_nil, DynamicRingBuffer.runOps]
    rw [hgrow, hn1]
    rfl
  · obtain ⟨rAInv, rAabs, rAout, _⟩ :=
      DynamicRingBuffer.reachable_facts hbs (es.map Op.enq)
    have habsA : ((DynamicRingBuffer.create T (2 ^ k)).runOps
        (es.map Op.enq)).1.absQueue = es := by
      rw [rAabs, fifoRun_enqs]
      exact List.nil_append _
    have houtA : ((DynamicRingBuffer.create T (2 ^ k)).runOps (es.map Op.enq)).2 = [] := by
      rw [rAout, fifoRun_enqs]
    obtain ⟨_, _, routD, _⟩ :=
      DynamicRingBuffer.runOps_refines rAInv (List.replicate (2 ^ k + 1) Op.deq)
    rw [habsA, fifoRun_deqs es (2 ^ k + 1) (by omega)] at routD
    rw [DynamicRingBuffer.runOps_append, houtA, List.nil_append, routD]
    show (es.take (2 ^ k + 1)).map some = es.map some
    rw [← hlen, List.take_length]

/-- Witness for C3 at block size 2 with three events. -/
theorem claim_C3_growth_witness :
    ((DynamicRingBuffer.create Nat (2 ^ 1)).runOps
      ([10, 20, 30].map Op.enq)).1.num_blocks = 2 ∧
    ((DynamicRingBuffer.create Nat (2 ^ 1)).runOps
        ([10, 20, 30].map Op.enq ++ List.replicate (2 ^ 1 + 1) Op.deq)).2
      = [10, 20, 30].map some :=
  claim_C3_growth 1 (by norm_num) [10, 20, 30] (by decide)

/-- C4: a fresh queue of power-of-two block size that is filled with
buffer_size enqueues, fully drained, and refilled with up to buffer_size
further enqueues never allocates a second block: num_blocks() is 1 after
every prefix of that operation sequence (the three clauses cover the
prefixes of the fill, of the drain, and of the refill). -/
theorem claim_C4_no_regrowth {T : Type} [Inhabited T] (k : Nat) (hk : k ≤ 64)
    (es1 es2 : List T) (h1 : es1.length = 2 ^ k) (h2 : es2.length ≤ 2 ^ k) :
    (∀ i, i ≤ es1.length →
      ((DynamicRingBuffer.create T (2 ^ k)).runOps
        ((es1.take i).map Op.enq)).1.num_blocks = 1) ∧
    (∀ m, m ≤ 2 ^ k →
      ((DynamicRingBuffer.create T (2 ^ k)).runOps
        (es1.map Op.enq ++ List.replicate m Op.deq)).1.num_blocks = 1) ∧
    (∀ j, j ≤ es2.length →
      ((DynamicRingBuffer.create T (2 ^ k)).runOps
        (es1.map Op.enq ++ List.replicate (2 ^ k) Op.deq
          ++ (es2.take j).map Op.enq)).1.num_blocks = 1) := by
  have hceil : ceilToPow2 (2 ^ k) = 2 ^ k := by
    rw [ceilToPow2_eq, Nat.clog_pow 2 k (by omega)]
  have hbs : (2 : Nat) ^ k ≤ 2 ^ 64 := Nat.pow_le_pow_right (by omega) hk
  have hbuf : (DynamicRingBuffer.create T (2 ^ k)).buffer_size_ = 2 ^ k := hceil
  have hpart1 : ∀ i, i ≤ es1.length →
      ((DynamicRingBuffer.create T (2 ^ k)).runOps
        ((es1.take i).map Op.enq)).1.num_blocks_ = 1 := by
    intro i hi
    obtain ⟨hn, _⟩ := DynamicRingBuffer.runOps_enqs_one
      (DynamicRingBuffer.create_Inv T hbs)
      (DynamicRingBuffer.create_length T (2 ^ k)) (es1.take i)
      (by
        rw [DynamicRingBuffer.create_absQueue, hbuf, List.length_take]
        simp only [List.length_nil]
        omega)
    exact hn
  have hpart2 : ∀ m, m ≤ 2 ^ k →
      ((DynamicRingBuffer.create T (2 ^ k)).runOps
        (es1.map Op.enq ++ List.replicate m Op.deq)).1.num_blocks_ = 1 := by
    intro m _
    rw [DynamicRingBuffer.runOps_append]
    show (((DynamicRingBuffer.create T (2 ^ k)).runOps
        (es1.map Op.enq)).1.runOps (List.replicate m Op.deq)).1.num_blocks_ = 1
    rw [DynamicRingBuffer.runOps_deqs_num]
    have h := hpart1 es1.length (le_refl _)
    rwa [List.take_length] at h
  refine ⟨hpart1, hpart2, ?_⟩
  intro j hj
  obtain ⟨q2Inv, _, _, q2buf⟩ := DynamicRingBuffer.reachable_facts hbs
    (es1.map Op.enq ++ List.replicate (2 ^ k) Op.deq)
  have hq2num : ((DynamicRingBuffer.create T (2 ^ k)).runOps
      (es1.map Op.enq ++ List.replicate (2 ^ k) Op.deq)).1.num_blocks_ = 1 :=
    hpart2 (2 ^ k) (le_refl _)
  have hq2len : ((DynamicRingBuffer.create T (2 ^ k)).runOps
      (es1.map Op.enq ++ List.replicate (2 ^ k) Op.deq)).1.blocks.length = 1 := by
    have := q2Inv.2.2.2.1
    omega
  obtain ⟨rAInv, rAabs, _, _⟩ := DynamicRingBuffer.reachable_facts hbs (es1.map Op.enq)
  have habsA : ((DynamicRingBuffer.create T (2 ^ k)).runOps
      (es1.map Op.enq)).1.absQueue = es1 := by
    rw [rAabs, fifoRun_enqs]
    exact List.nil_append _
  obtain ⟨_, rDabs, _, _⟩ :=
    DynamicRingBuffer.runOps_refines rAInv (List.replicate (2 ^ k) Op.deq)
  rw [habsA, fifoRun_deqs es1 (2 ^ k) (by omega)] at rDabs
  have habs2 : ((DynamicRingBuffer.create T (2 ^ k)).runOps
      (es1.map Op.enq ++ List.replicate (2 ^ k) Op.deq)).1.absQueue = [] := by
    rw [DynamicRingBuffer.runOps_append]
    show (((DynamicRingBuffer.create T (2 ^ k)).runOps
        (es1.map Op.enq)).1.runOps (List.replicate (2 ^ k) Op.deq)).1.absQueue = []
    rw [rDabs]
    show es1.drop (2 ^ k) = []
    rw [← h1, List.drop_length]
  obtain ⟨hn3, _⟩ := DynamicRingBuffer.runOps_enqs_one q2Inv hq2len (es2.take j)
    (by
      rw [habs2, q2buf, hceil, List.length_take]
      simp only [List.length_nil]
      omega)
  rw [DynamicRingBuffer.runOps_append]
  show (((DynamicRingBuffer.create T (2 ^ k)).runOps
      (es1.map Op.enq ++ List.replicate (2 ^ k) Op.deq)).1.runOps
        ((es2.take j).map Op.enq)).1.num_blocks_ = 1
  rw [hn3, hq2num]

/-- Witness for C4 at block size 2: after the fill with two events, after
the full drain, and after the complete refill, num_blocks() is still 1. -/
theorem claim_C4_no_regrowth_witness :
    ((DynamicRingBuffer.create Nat (2 ^ 1)).runOps
      ((([1, 2] : List Nat).take 2).map Op.enq)).1.num_blocks = 1 ∧
    ((DynamicRingBuffer.create Nat (2 ^ 1)).runOps
      (([1, 2] : List Nat).map Op.enq ++ List.replicate 2 Op.deq)).1.num_blocks = 1 ∧
    ((DynamicRingBuffer.create Nat (2 ^ 1)).runOps
      (([1, 2] : List Nat).map Op.enq ++ List.replicate (2 ^ 1) Op.deq
        ++ (([3, 4] : List Nat).take 2).map Op.enq)).1.num_blocks = 1 :=
  ⟨(claim_C4_no_regrowth 1 (by norm_num) [1, 2] [3, 4] (by decide) (by decide)).1
      2 (by decide),
    (claim_C4_no_regrowth 1 (by norm_num) [1, 2] [3, 4] (by decide) (by decide)).2.1
      2 (by decide),
    (claim_C4_no_regrowth 1 (by norm_num) [1, 2] [3, 4] (by decide) (by decide)).2.2
      2 (by decide)⟩

theorem DynamicRingBuffer.occupied_approx_ringSeg (q : DynamicRingBuffer T) :
    q.occupied_approx
      = (q.ringSeg.map (fun b => ((b.tail_ - b.head_).emod (2 ^ 64)).toNat)).sum % 2 ^ 64 := by
  unfold DynamicRingBuffer.occupied_approx
  have hperm : List.Perm
      (q.ringSeg.map (fun b => ((b.tail_ - b.head_).emod (2 ^ 64)).toNat))
      (q.blocks.map (fun b => ((b.tail_ - b.head_).emod (2 ^ 64)).toNat)) :=
    (List.rotate_perm q.blocks q.front_block_).map _
  rw [hperm.sum_eq]

/-- C8: for a power-of-two block size B below 2^64, available_approx()
returns exactly B right after construction (both counters at the
INITIAL_CURSOR_VALUE sentinel), returns B - 1 after exactly one enqueue, and
has_available_capacity() returns true exactly when available_approx() > 0;
all the counter subtractions are computed in size_t arithmetic (mod 2^64). -/
theorem claim_C8_available {T : Type} [Inhabited T] (e : T) (k : Nat) (hk : k < 64) :
    (DynamicRingBuffer.create T (2 ^ k)).available_approx = 2 ^ k ∧
    ((DynamicRingBuffer.create T (2 ^ k)).enqueue e).available_approx = 2 ^ k - 1 ∧
    (∀ q : DynamicRingBuffer T,
      q.has_available_capacity = true ↔ 0 < q.available_approx) := by
  have hceil : ceilToPow2 (2 ^ k) = 2 ^ k := by
    rw [ceilToPow2_eq, Nat.clog_pow 2 k (by omega)]
  have hpos : (0 : Nat) < 2 ^ k := Nat.pos_pow_of_pos _ (by omega)
  have hlt64 : (2 : Nat) ^ k < 2 ^ 64 := Nat.pow_lt_pow_right (by omega) hk
  have hbuf : (DynamicRingBuffer.create T (2 ^ k)).buffer_size_ = 2 ^ k := hceil
  have hocc0 : (DynamicRingBuffer.create T (2 ^ k)).occupied_approx = 0 := by
    unfold DynamicRingBuffer.occupied_approx
    rw [DynamicRingBuffer.create_blocks, List.map_cons, List.map_nil]
    show ([((((-1 : Int)) - (-1)).emod (2 ^ 64)).toNat]).sum % 2 ^ 64 = 0
    norm_num
  have hnum0 : (DynamicRingBuffer.create T (2 ^ k)).num_blocks_ = 1 := rfl
  refine ⟨?_, ?_, ?_⟩
  · unfold DynamicRingBuffer.available_approx
    rw [hocc0, hbuf, hnum0]
    show ((((2 ^ k : Nat) : Int) * ((1 : Nat) : Int) - ((0 : Nat) : Int)) % (2 ^ 64)).toNat
      = 2 ^ k
    omega
  · have hf : (DynamicRingBuffer.create T (2 ^ k)).front_block_
        < (DynamicRingBuffer.create T (2 ^ k)).blocks.length := by
      rw [DynamicRingBuffer.create_length]
      show 0 < 1
      omega
    have ht : (DynamicRingBuffer.create T (2 ^ k)).tail_block_
        < (DynamicRingBuffer.create T (2 ^ k)).blocks.length := by
      rw [DynamicRingBuffer.create_length]
      show 0 < 1
      omega
    have hb : (DynamicRingBuffer.create T (2 ^ k)).blockAt 0
        = Block.create T (ceilToPow2 (2 ^ k)) := by
      unfold DynamicRingBuffer.blockAt
      rw [DynamicRingBuffer.create_ringSeg]
      exact List.getD_cons_zero
    have hcap : ((DynamicRingBuffer.create T (2 ^ k)).blockAt
        (DynamicRingBuffer.create T (2 ^ k)).tailPos).hasAvailableCapacity = true := by
      rw [DynamicRingBuffer.create_tailPos, hb, Block.hasAvailableCapacity_true_iff]
      show (-1 : Int) + 1 - ((ceilToPow2 (2 ^ k) : Nat) : Int) ≤ -1
      rw [hceil]
      omega
    obtain ⟨hring, _, _, _, _, hnb, hbs2⟩ :=
      (DynamicRingBuffer.create T (2 ^ k)).enqueue_avail_spec e hf ht hcap
    have hring2 : ((DynamicRingBuffer.create T (2 ^ k)).enqueue e).ringSeg
        = [((Block.create T (ceilToPow2 (2 ^ k))).push e)] := by
      rw [hring, DynamicRingBuffer.create_ringSeg, DynamicRingBuffer.create_tailPos, hb]
      rfl
    have hocc1 : ((DynamicRingBuffer.create T (2 ^ k)).enqueue e).occupied_approx = 1 := by
      rw [DynamicRingBuffer.occupied_approx_ringSeg, hring2, List.map_cons, List.map_nil]
      show ([((((0 : Int)) - (-1)).emod (2 ^ 64)).toNat]).sum % 2 ^ 64 = 1
      norm_num
    unfold DynamicRingBuffer.available_approx
    rw [hocc1, hbs2, hbuf, hnb, hnum0]
    show ((((2 ^ k : Nat) : Int) * ((1 : Nat) : Int) - ((1 : Nat) : Int)) % (2 ^ 64)).toNat
      = 2 ^ k - 1
    omega
  · intro q
    unfold DynamicRingBuffer.has_available_capacity
    exact decide_eq_true_iff

/-- Witness for C8 at block size 16, checking the capacity equivalence on
the freshly constructed queue. -/
theorem claim_C8_available_witness :
    (DynamicRingBuffer.create Nat (2 ^ 4)).available_approx = 2 ^ 4 ∧
    ((DynamicRingBuffer.create Nat (2 ^ 4)).enqueue 5).available_approx = 2 ^ 4 - 1 ∧
    ((DynamicRingBuffer.create Nat (2 ^ 4)).has_available_capacity = true
      ↔ 0 < (DynamicRingBuffer.create Nat (2 ^ 4)).available_approx) :=
  ⟨(claim_C8_available 5 4 (by norm_num)).1,
    (claim_C8_available 5 4 (by norm_num)).2.1,
    (claim_C8_available 5 4 (by norm_num)).2.2 (DynamicRingBuffer.create Nat (2 ^ 4))⟩

/-- C9: the constructor rounds the requested block size up to the next power
of two (exactly: 2 to the ceiling base-two logarithm, at least the request,
minimal among powers of two at or above it; 10 becomes 16) and that value is
the size of every block ever allocated during any run. -/
theorem claim_C9_ceil_pow2 {T : Type} [Inhabited T] (bs : Nat) (hbs : bs ≤ 2 ^ 64)
    (ops : List (Op T)) :
    (DynamicRingBuffer.create T bs).buffer_size_ = ceilToPow2 bs ∧
    ceilToPow2 bs = 2 ^ Nat.clog 2 bs ∧
    bs ≤ ceilToPow2 bs ∧
    (∀ m, bs ≤ 2 ^ m → ceilToPow2 bs ≤ 2 ^ m) ∧
    ceilToPow2 10 = 16 ∧
    ∀ b ∈ ((DynamicRingBuffer.create T bs).runOps ops).1.blocks,
      b.size_ = ceilToPow2 bs := by
  refine ⟨rfl, ceilToPow2_eq bs, ?_, ?_, by decide, ?_⟩
  · rw [ceilToPow2_eq]
    exact Nat.le_pow_clog (by omega) bs
  · intro m hm
    rw [ceilToPow2_eq]
    exact Nat.pow_le_pow_right (by omega) ((Nat.le_pow_iff_clog_le (by omega)).mp hm)
  · intro b hb
    obtain ⟨hInv, _, _, hbuf⟩ := DynamicRingBuffer.reachable_facts hbs ops
    have hsz := (DynamicRingBuffer.shape_of_mem hInv hb).1
    rw [hsz, hbuf]

/-- Witness for C9 at requested size 10 (which rounds to 16): minimality
checked against 2^4, and the first allocated block of a concrete run has the
rounded size. -/
theorem claim_C9_ceil_pow2_witness :
    (DynamicRingBuffer.create Nat 10).buffer_size_ = ceilToPow2 10 ∧
    ceilToPow2 10 = 2 ^ Nat.clog 2 10 ∧
    10 ≤ ceilToPow2 10 ∧
    ceilToPow2 10 ≤ 2 ^ 4 ∧
    ceilToPow2 10 = 16 ∧
    (((DynamicRingBuffer.create Nat 10).runOps
        ([Op.enq 1, Op.enq 2, Op.deq] : List (Op Nat))).1.blocks.getD 0 default).size_
      = ceilToPow2 10 :=
  ⟨(claim_C9_ceil_pow2 10 (by norm_num) ([Op.enq 1, Op.enq 2, Op.deq] : List (Op Nat))).1,
    (claim_C9_ceil_pow2 10 (by norm_num) ([Op.enq 1, Op.enq 2, Op.deq] : List (Op Nat))).2.1,
    (claim_C9_ceil_pow2 10 (by norm_num) ([Op.enq 1, Op.enq 2, Op.deq] : List (Op Nat))).2.2.1,
    (claim_C9_ceil_pow2 10 (by norm_num)
      ([Op.enq 1, Op.enq 2, Op.deq] : List (Op Nat))).2.2.2.1 4 (by norm_num),
    (claim_C9_ceil_pow2 10 (by norm_num)
      ([Op.enq 1, Op.enq 2, Op.deq] : List (Op Nat))).2.2.2.2.1,
    (claim_C9_ceil_pow2 10 (by norm_num)
      ([Op.enq 1, Op.enq 2, Op.deq] : List (Op Nat))).2.2.2.2.2 _ (by decide)⟩

/-- C10: every enqueue on a reachable state leaves the consumer-owned state
alone: read in ring order from the consumer, the head counters are unchanged
(growth only appends a fresh block whose head is the initial sentinel),
exactly one tail counter is incremented by one, num_blocks_ changes only by
the optional growth, and front_block_ still refers to the same block. -/
theorem claim_C10_enqueue_frame {T : Type} [Inhabited T] (ops : List (Op T)) (bs : Nat)
    (e : T) (hbs : bs ≤ 2 ^ 64) :
    enqueueFrame (((DynamicRingBuffer.create T bs).runOps ops).1)
      ((((DynamicRingBuffer.create T bs).runOps ops).1).enqueue e) :=
  DynamicRingBuffer.enqueue_frame_of_inv e (DynamicRingBuffer.reachable_facts hbs ops).1

/-- Witness for C10: the frame property at a concrete reachable two-block
state, for an enqueue that reuses the drained block. -/
theorem claim_C10_enqueue_frame_witness :
    enqueueFrame (((DynamicRingBuffer.create Nat 1).runOps
        [Op.enq 7, Op.enq 8, Op.deq]).1)
      ((((DynamicRingBuffer.create Nat 1).runOps
        [Op.enq 7, Op.enq 8, Op.deq]).1).enqueue 9) :=
  claim_C10_enqueue_frame [Op.enq 7, Op.enq 8, Op.deq] 1 9 (by norm_num)

end Disruptor
